import Mathlib

/-!
# Verification of the lazytest reactive test-selection core

This development shallowly embeds the core components of the lazytest
repository (Go) and settles the specification claims against them:

* association-list semantics standing in for Go `map[string]...` values;
* the dependency graph (`analysis` package: `Graph.Update`,
  `Graph.GetDependents`, `Graph.GetDependencyType` and helpers);
* the import-parser result shape (`ImportEntry`, `ImportResult`);
* the filesystem walker (`filesystem.Walk`, `isTestFile`, `IsTestFile`);
* the job preparer (`runner.GetExecutionRoot`) and the engine's
  `TriggerTest` / watcher-message handling (`engine.Engine.Update`);
* a trace model of the runner's update channel (`runner.Runner.Run`).

File I/O is made explicit: wherever the Go code reads the disk (parsing a
file, statting `package.json`), the embedding takes the result of that read
as a parameter.
-/

namespace LazyTest

/-! ## Association lists: the embedding of Go string-keyed maps

A Go `map[string]V` is modelled as a `List (String × V)` with at most one
entry per key.  `aset` models map assignment `m[k] = v`, `aerase` models
`delete(m, k)`, `alookup` models `v, ok := m[k]`. -/

def alookup (l : List (String × β)) (k : String) : Option β :=
  match l with
  | [] => none
  | (k', v) :: rest => if k' = k then some v else alookup rest k

def aerase (l : List (String × β)) (k : String) : List (String × β) :=
  l.filter (fun p => p.1 ≠ k)

def aset (l : List (String × β)) (k : String) (v : β) : List (String × β) :=
  (k, v) :: aerase l k

def akeys (l : List (String × β)) : List String := l.map (·.1)

/-! ## Path string helpers (filepath.Base, filepath.Ext, filepath.Dir,
strings.TrimSuffix, strings.HasSuffix), as used by the analysis package.

They are implemented by structural recursion over the character list of
the string, so that every concrete scenario evaluates inside the kernel. -/

/-- Character-list prefix test (`strings.HasPrefix` on exploded strings). -/

def isPrefixChars : List Char → List Char → Bool
  | [], _ => true
  | _ :: _, [] => false
  | x :: xs, y :: ys => x = y && isPrefixChars xs ys

/-- `strings.HasSuffix`. -/

def strEndsWith (s suf : String) : Bool :=
  isPrefixChars suf.data.reverse s.data.reverse

/-- `strings.Split` on a single separator character. -/

def splitOnChar (c : Char) : List Char → List (List Char)
  | [] => [[]]
  | x :: xs =>
    let rest := splitOnChar c xs
    if x = c then [] :: rest
    else
      match rest with
      | [] => [[x]]
      | r :: rs => (x :: r) :: rs

/-- `strings.Join` with a `/` separator. -/

def interSlash : List (List Char) → List Char
  | [] => []
  | [x] => x
  | x :: xs => x ++ '/' :: interSlash xs

/-- `filepath.Base`: the final path component. -/

def basename (p : String) : String :=
  ⟨(splitOnChar '/' p.data).getLastD p.data⟩

/-- `strings.TrimSuffix`. -/

def trimSuffix (s suf : String) : String :=
  if strEndsWith s suf then
    ⟨s.data.take (s.data.length - suf.data.length)⟩
  else s

/-- `filepath.Ext`: the suffix of the final component starting at its last
dot, or `""` when the final component has no dot. -/

def extOf (p : String) : String :=
  let parts := splitOnChar '.' (basename p).data
  if parts.length ≤ 1 then "" else ⟨'.' :: parts.getLastD []⟩

/-- `filepath.Dir` for already-clean paths: everything before the final
slash (`"/"` when that is empty, `"."` when there is no slash). -/

def dirOf (p : String) : String :=
  let parts := splitOnChar '/' p.data
  if parts.length ≤ 1 then "." else
    let j := interSlash parts.dropLast
    if j.isEmpty then "/" else ⟨j⟩

/-- `filesystem.IsSourceFile` / `analysis.isSourceFile`: suffix in
`.ts .js .tsx .jsx`. -/

def isSourceFile (name : String) : Bool :=
  strEndsWith name ".ts" || strEndsWith name ".js" ||
  strEndsWith name ".tsx" || strEndsWith name ".jsx"

/-! ## The dependency graph (`analysis.Graph`, `src/unnamed/part_008`)

`ParseImports` reads the disk, so the embedding of `Update` takes the parse
result as an explicit argument (`none` embeds the error return). -/

inductive DependencyType where
  | DepRegular
  | DepMocked
deriving DecidableEq, Repr

export DependencyType (DepRegular DepMocked)

/-- A resolved or unresolved import produced by the parser: for resolved
entries `Path` is the on-disk target, for unresolved entries it is the
absolute lookup key without extension. -/

structure ImportEntry where
  Path : String
  Mocked : Bool
deriving DecidableEq, Repr

structure ImportResult where
  Resolved : List ImportEntry
  Unresolved : List ImportEntry
deriving DecidableEq, Repr

abbrev DepMap := List (String × DependencyType)

structure Graph where
  Forward : List (String × DepMap)
  Reverse : List (String × DepMap)
  PendingImports : List (String × DepMap)
deriving DecidableEq, Repr

/-- `NewGraph`. -/

def Graph.empty : Graph := ⟨[], [], []⟩

def Graph.addPendingImport (g : Graph) (importPath dependent : String)
    (depType : DependencyType) : Graph :=
  let inner := (alookup g.PendingImports importPath).getD []
  let outer := aset g.PendingImports importPath (aset inner dependent depType)
  { g with PendingImports := outer }

/-- The map assignment `g.Forward[a][b] = k`, creating the inner map when
absent (Go's `if g.Forward[a] == nil { ... make ... }` guard). -/

def Graph.setForward (g : Graph) (a b : String) (k : DependencyType) : Graph :=
  let inner := (alookup g.Forward a).getD []
  { g with Forward := aset g.Forward a (aset inner b k) }

def Graph.addReverseDependency (g : Graph) (dependency dependent : String)
    (depType : DependencyType) : Graph :=
  let inner := (alookup g.Reverse dependency).getD []
  { g with Reverse := aset g.Reverse dependency (aset inner dependent depType) }

def Graph.removeReverseDependency (g : Graph) (dependency dependent : String) :
    Graph :=
  match alookup g.Reverse dependency with
  | none => g
  | some deps =>
    let deps' := aerase deps dependent
    if deps'.isEmpty then { g with Reverse := aerase g.Reverse dependency }
    else { g with Reverse := aset g.Reverse dependency deps' }

/-- The candidate pending-import keys a new or updated file can satisfy:
the path itself, the path with its extension stripped, and—for index
files—the parent directory. -/

def candidates (path : String) : List String :=
  let ext := extOf path
  let withSelf := [path]
  let withExt := withSelf ++ (if ext ≠ "" then [trimSuffix path ext] else [])
  let name := basename path
  let nameNoExt := trimSuffix name ext
  withExt ++ (if nameNoExt = "index" then [dirOf path] else [])

/-- `Update` step 1: clear the file's old outgoing edges from `Reverse` and
reset `g.Forward[path]` to a fresh empty map. -/

def Graph.clearPhase (g : Graph) (path : String) : Graph :=
  let g1 := match alookup g.Forward path with
    | some oldDeps =>
        oldDeps.foldl (fun (h : Graph) (p : String × DependencyType) =>
          h.removeReverseDependency p.1 path) g
    | none => g
  { g1 with Forward := aset g1.Forward path [] }

/-- `Update` step 2, per resolved entry: insert the forward edge and mirror
it into `Reverse`. -/

def Graph.resolveStep (path : String) (h : Graph) (imp : ImportEntry) : Graph :=
  let depType := if imp.Mocked then DepMocked else DepRegular
  (h.setForward path imp.Path depType).addReverseDependency imp.Path path depType

/-- `Update` step 3, per unresolved entry: record it in `PendingImports`. -/

def Graph.pendingStep (path : String) (h : Graph) (u : ImportEntry) : Graph :=
  let depType := if u.Mocked then DepMocked else DepRegular
  h.addPendingImport u.Path path depType

/-- `Update` step 4, per candidate key: when the key is pending, link every
pending dependent to `path` (reverse then forward) and drop the key. -/

def Graph.candidateStep (path : String) (h : Graph) (candidate : String) :
    Graph :=
  match alookup h.PendingImports candidate with
  | some dependents =>
    let h1 := dependents.foldl (fun (h2 : Graph) (p : String × DependencyType) =>
      (h2.addReverseDependency path p.1 p.2).setForward p.1 path p.2) h
    { h1 with PendingImports := aerase h1.PendingImports candidate }
  | none => h

/-- `Graph.Update`: re-parse a file and splice its edges into the graph. -/

def Graph.Update (g : Graph) (path : String) (parse : Option ImportResult) :
    Graph :=
  if ¬ isSourceFile (basename path) then g else
  match parse with
  | none => g
  | some result =>
    -- Clear old dependencies, reset the Forward map entry
    let g2 := g.clearPhase path
    -- Insert the resolved forward edges, mirrored into Reverse
    let g3 := result.Resolved.foldl (Graph.resolveStep path) g2
    -- Add unresolved imports to PendingImports
    let g4 := result.Unresolved.foldl (Graph.pendingStep path) g3
    -- Resolve any pending imports this file satisfies
    (candidates path).foldl (Graph.candidateStep path) g4

/-- Forward-edge lookup (`g.Forward[a][b]`). -/

def Graph.fwd (g : Graph) (a b : String) : Option DependencyType :=
  (alookup g.Forward a).bind (fun m => alookup m b)

/-- Reverse-edge lookup (`g.Reverse[b][a]`). -/

def Graph.rev (g : Graph) (b a : String) : Option DependencyType :=
  (alookup g.Reverse b).bind (fun m => alookup m a)

/-- `Graph.GetDependencyType`: direct forward lookup, `DepRegular` when
absent. -/

def Graph.GetDependencyType (g : Graph) (dependent dependency : String) :
    DependencyType :=
  match alookup g.Forward dependent with
  | some deps =>
    match alookup deps dependency with
    | some t => t
    | none => DepRegular
  | none => DepRegular

/-! ## `Graph.GetDependents`: breadth-first traversal over `Reverse` -/

/-- One step of the BFS inner loop: fold the neighbor entries of the
current node, appending each not-yet-visited key to `visited`,
`dependents` and the work `queue`. -/

def bfsVisit (entries : DepMap) (visited dependents queue : List String) :
    List String × List String × List String :=
  entries.foldl (fun acc p =>
    if p.1 ∈ acc.1 then acc
    else (acc.1 ++ [p.1], acc.2.1 ++ [p.1], acc.2.2 ++ [p.1]))
    (visited, dependents, queue)

/-- All node names mentioned by the `Reverse` map (used only as a
termination measure for the BFS). -/

def reverseUniv (g : Graph) : List String :=
  akeys g.Reverse ++ g.Reverse.foldr (fun p acc => akeys p.2 ++ acc) []

def unvisitedCount (univ visited : List String) : Nat :=
  (univ.filter (fun x => decide (x ∉ visited))).length

/-- `Graph.GetDependents`'s BFS loop.  The Go loop runs until the work
queue drains; here the number of iterations is additionally bounded by an
explicit fuel argument.  `getDependentsAux_spec` maintains the bound
`queue.length + unvisitedCount (reverseUniv g) visited ≤ fuel`, so the
fuel `GetDependents` passes is never exhausted: each iteration pops one
queue entry and a node is enqueued at most once. -/

def Graph.getDependentsAux (g : Graph) :
    Nat → List String → List String → List String → List String
  | 0, _, _, dependents => dependents
  | fuel + 1, queue, visited, dependents =>
    match queue with
    | [] => dependents
    | current :: rest =>
      match alookup g.Reverse current with
      | none => g.getDependentsAux fuel rest visited dependents
      | some deps =>
        let s := bfsVisit deps visited dependents rest
        g.getDependentsAux fuel s.2.2 s.1 s.2.1

/-- `Graph.GetDependents`: all files that transitively depend on `path`. -/

def Graph.GetDependents (g : Graph) (path : String) : List String :=
  g.getDependentsAux ((reverseUniv g).length + 1) [path] [path] []

/-- One reverse edge: `y` is recorded as a dependent of `x`. -/

def revStep (g : Graph) (x y : String) : Prop :=
  ∃ deps, alookup g.Reverse x = some deps ∧ y ∈ akeys deps

/-! ## The forward/reverse mirror invariant -/

/-- Every forward edge has a mirrored reverse edge of the same kind, and
vice versa. -/

def Mirror (g : Graph) : Prop :=
  ∀ a b k, g.fwd a b = some k ↔ g.rev b a = some k

/-- A sequence of `Update` calls applied to the fresh graph; each call
carries the parse result its disk read produced. -/

def foldUpdates (calls : List (String × Option ImportResult)) : Graph :=
  calls.foldl (fun g c => g.Update c.1 c.2) Graph.empty

/-! ## Last-write-wins helpers for the fold characterisations -/

/-- The kind written last for key `d` by a left fold of map assignments. -/

def lastVal (l : DepMap) (d : String) : Option DependencyType :=
  l.foldl (fun acc p => if p.1 = d then some p.2 else acc) none

/-- The dependency kind the resolved-entries fold writes last for target
`b` (overwrite semantics of the Go map assignment). -/

def resolvedKind (l : List ImportEntry) (b : String) : Option DependencyType :=
  l.foldl (fun acc e => if e.Path = b then
    some (if e.Mocked then DepMocked else DepRegular) else acc) none

/-! The pending-self invariant: no pending key that a file itself could
satisfy ever holds that file as a dependent.  The candidate phase of
`Update` restores it even for degenerate parse results. -/

def PendingSelf (g : Graph) : Prop :=
  ∀ x K, K ∈ candidates x →
    (alookup g.PendingImports K).bind (fun m => alookup m x) = none

/-! The no-empty-reverse-map invariant: `removeReverseDependency` collapses
emptied inner maps, and nothing ever stores an empty one. -/

def NoEmptyRev (g : Graph) : Prop :=
  ∀ b, alookup g.Reverse b ≠ some ([] : DepMap)

/-- Every inner pending map has distinct dependent keys. -/

def PendingNodup (g : Graph) : Prop :=
  ∀ K m, alookup g.PendingImports K = some m → (akeys m).Nodup

/-- The parse results of the four-file scenario: `component.ts` and
`utils.test.ts` import `./utils` (resolving to `utils.ts`), and
`component.test.ts` imports `./component`. -/

def scenario1Calls : List (String × Option ImportResult) :=
  [("/r/utils.ts", some ⟨[], []⟩),
   ("/r/component.ts", some ⟨[⟨"/r/utils.ts", false⟩], []⟩),
   ("/r/utils.test.ts", some ⟨[⟨"/r/utils.ts", false⟩], []⟩),
   ("/r/component.test.ts", some ⟨[⟨"/r/component.ts", false⟩], []⟩)]

/-- The edge-removal scenario: `b.ts` imports `./a`, resolved to `a.ts`. -/

def scenario3Calls : List (String × Option ImportResult) :=
  [("/r/a.ts", some ⟨[], []⟩),
   ("/r/b.ts", some ⟨[⟨"/r/a.ts", false⟩], []⟩)]

/-- The late-creation scenario: `utils.test.ts` imports `./utils` before
`utils.ts` exists, leaving the pending key `/r/utils`. -/

def scenario2Calls : List (String × Option ImportResult) :=
  [("/r/utils.test.ts", some ⟨[], [⟨"/r/utils", false⟩]⟩)]

/-! ## The filesystem walker (`src/filesystem/walker.go`, `predicates.go`)

`filepath.Walk` reads the disk, so the embedding takes the directory tree
as an explicit inductive value and enumerates it in the same pre-order,
with the same `SkipDir` pruning of ignored directories. -/

/-- A directory entry as seen by `filepath.Walk`: a plain file or a
directory with its children in visitation order. -/

inductive FSEntry where
  | file (name : String)
  | dir (name : String) (children : List FSEntry)

/-- `filesystem.shouldIgnore`: name is one of the ignored directories. -/

def shouldIgnore (name : String) : Bool :=
  name = "node_modules" || name = ".git" || name = "dist" ||
  name = "build" || name = "coverage"

/-- `filesystem.isTestFile` (the private predicate used by `Walk`):
exactly four suffixes. -/

def isTestFile (name : String) : Bool :=
  strEndsWith name ".test.ts" || strEndsWith name ".test.js" ||
  strEndsWith name ".spec.ts" || strEndsWith name ".spec.js"

/-- `filesystem.IsTestFile` (the public classifier): eight suffixes. -/

def IsTestFile (name : String) : Bool :=
  strEndsWith name ".test.ts" || strEndsWith name ".test.js" ||
  strEndsWith name ".spec.ts" || strEndsWith name ".spec.js" ||
  strEndsWith name ".test.tsx" || strEndsWith name ".test.jsx" ||
  strEndsWith name ".spec.tsx" || strEndsWith name ".spec.jsx"

/-- The `filepath.Walk` enumeration inside `filesystem.Walk`: every file
reached without entering an ignored directory, as a `(path, base name)`
pair, in visitation order.  `fuel` only bounds the tree depth so the
function is structurally recursive; any fuel larger than the depth gives
the full enumeration. -/

def walkEntries : Nat → String → List FSEntry → List (String × String)
  | 0, _, _ => []
  | _ + 1, _, [] => []
  | fuel + 1, pre, .file name :: rest =>
    (pre ++ "/" ++ name, name) :: walkEntries fuel pre rest
  | fuel + 1, pre, .dir name children :: rest =>
    (if shouldIgnore name then []
     else walkEntries fuel (pre ++ "/" ++ name) children) ++
      walkEntries fuel pre rest

/-- A node of the test tree (`filesystem.Node`, without the `Parent` back
pointer, which only mirrors the containment the tree already shows). -/

inductive NodeT where
  | node (name path : String) (isDir : Bool) (children : List NodeT)

def NodeT.name : NodeT → String
  | .node n _ _ _ => n

def NodeT.path : NodeT → String
  | .node _ p _ _ => p

def NodeT.isDir : NodeT → Bool
  | .node _ _ d _ => d

def NodeT.children : NodeT → List NodeT
  | .node _ _ _ cs => cs

/-- The loop body of `addPathToTree` at one directory level: find the
first child directory named `part` and continue inside it, or append a
fresh one (Go appends the new node and mutates it in place). -/

def insertChild (part : String) (go : NodeT → NodeT) (fresh : NodeT) :
    List NodeT → List NodeT
  | [] => [go fresh]
  | c :: rest =>
    if c.name = part && c.isDir then go c :: rest
    else c :: insertChild part go fresh rest

/-- The `for i, part := range parts` loop of `addPathToTree`: the last
part becomes a file leaf, earlier parts navigate or create directories. -/

def addParts : NodeT → String → List String → NodeT
  | t, _, [] => t
  | .node nm p d cs, path, [part] =>
    .node nm p d (cs ++ [.node part path false []])
  | .node nm p d cs, path, part :: r :: rs =>
    .node nm p d (insertChild part (fun c => addParts c path (r :: rs))
      (.node part (p ++ "/" ++ part) true []) cs)

/-- `filepath.Rel(root, path)` restricted to the calls `Walk` makes:
every walked path extends the root, where `Rel` just strips the
`root + "/"` prefix (`none` embeds the error return). -/

def filepathRel (rootPath path : String) : Option String :=
  if isPrefixChars (rootPath ++ "/").data path.data then
    some ⟨path.data.drop (rootPath ++ "/").data.length⟩
  else none

/-- `filesystem.addPathToTree`. -/

def addPathToTree (root : NodeT) (path rootPath : String) : NodeT :=
  match filepathRel rootPath path with
  | none => root
  | some rel =>
    addParts root path
      ((splitOnChar '/' rel.data).map (fun l => (⟨l⟩ : String)))

/-- `filesystem.Walk`: build the root node, enumerate the tree, and add
every non-ignored test file to the tree. -/

def Walk (root : String) (fs : List FSEntry) (fuel : Nat) : NodeT :=
  let rootNode : NodeT := .node (basename root) root true []
  ((walkEntries fuel root fs).filter (fun pn => isTestFile pn.2)).foldl
    (fun t pn => addPathToTree t pn.1 root) rootNode

/-- `q` is the path of a leaf (a non-directory node) of the tree. -/

inductive Leaf : NodeT → String → Prop where
  | file (nm p : String) (cs : List NodeT) : Leaf (.node nm p false cs) p
  | dir (nm p : String) (cs : List NodeT) (c : NodeT) (q : String)
      (hc : c ∈ cs) (hl : Leaf c q) : Leaf (.node nm p true cs) q

/-- A small directory tree exercising both the `tsx` exclusion and the
`node_modules` pruning. -/

def fsC10 : List FSEntry :=
  [.dir "src" [.file "a.test.ts", .file "b.test.tsx", .file "c.ts"],
   .dir "node_modules" [.file "d.test.ts"]]

/-! ## Execution root and job preparation (`src/unnamed/part_012`,
`src/runner/job.go`)

`os.Stat` reads the disk, so the embedding takes the predicate "this
directory contains `package.json`" as an explicit oracle `hasPkg`.
`LoadConfig`, the override matching and `BuildCommandString` only shape
`Command`/`Args` from disk-loaded configuration, so they are taken
together as an explicit oracle `buildCmd` from the execution root and the
node path; `Root` and the error case — everything C8 speaks about — are
embedded from the source. -/

/-- The `for` loop of `GetExecutionRoot`: return `dir` as soon as it has a
`package.json`, stop with an error at the filesystem root.  `fuel` only
bounds the iteration count so the function is structurally recursive. -/

def getExecutionRootAux (hasPkg : String → Bool) : Nat → String → Option String
  | 0, _ => none
  | fuel + 1, dir =>
    if hasPkg dir then some dir
    else
      let parent := dirOf dir
      if parent = dir then none
      else getExecutionRootAux hasPkg fuel parent

/-- The directories the `GetExecutionRoot` loop inspects, in order. -/

def ancestorChain : Nat → String → List String
  | 0, _ => []
  | fuel + 1, dir =>
    dir :: (if dirOf dir = dir then [] else ancestorChain fuel (dirOf dir))

/-- `runner.GetExecutionRoot`: `p.data.length + 3` iterations always
reach the filesystem root (proved below), so the fuel never runs out. -/

def GetExecutionRoot (hasPkg : String → Bool) (p : String) : Option String :=
  getExecutionRootAux hasPkg (p.data.length + 3) (dirOf p)

/-- The ancestor directories of `p`, nearest first. -/

def ancestors (p : String) : List String :=
  ancestorChain (p.data.length + 3) (dirOf p)

/-- `runner.TestJob`. -/

structure TestJob where
  Command : String
  Args : List String
  Root : String
deriving DecidableEq

/-- `runner.PrepareJob`: find the execution root, then build the command
(config loading and command building folded into the `buildCmd` oracle). -/

def PrepareJob (hasPkg : String → Bool)
    (buildCmd : String → String → String × List String)
    (nodePath : String) : Option TestJob :=
  match GetExecutionRoot hasPkg nodePath with
  | none => none
  | some execRoot =>
    let ca := buildCmd execRoot nodePath
    some ⟨ca.1, ca.2, execRoot⟩

/-! ## The engine (`src/engine/engine.go`, `src/engine/state.go`)

The bubbletea `tea.Cmd` returned by `TriggerTest` either launches the
runner on a job or is `nil`; it is embedded as an `Option TestJob`.  The
`Tree` field and the watcher handle are not touched by the transitions
modelled here and are omitted from the state. -/

/-- `engine.TestStatus`. -/

inductive TestStatus where
  | StatusIdle
  | StatusRunning
  | StatusPass
  | StatusFail
deriving DecidableEq

/-- `filesystem.Node` as the engine uses it: a name and a path. -/

structure ENode where
  Name : String
  Path : String
deriving DecidableEq

/-- `engine.State`. -/

structure EState where
  Watched : List String
  Queue : List String
  NodeStatus : List (String × TestStatus)
  TestOutputs : List (String × String)
  RunningNode : Option ENode
  LastRunNode : Option ENode
  CurrentOutput : String
  RootPath : String
deriving DecidableEq

/-- `Engine.TriggerTest`: mark the node running, prepare the job; on
error append the explanatory line, mark the node failed and return no
command (`none`). -/

def TriggerTest (hasPkg : String → Bool)
    (buildCmd : String → String → String × List String)
    (s : EState) (node : ENode) : EState × Option TestJob :=
  let out1 := "Running " ++ node.Name ++ "...\n"
  let st1 := aset s.NodeStatus node.Path TestStatus.StatusRunning
  let to1 := aset s.TestOutputs node.Path out1
  let s2 : EState :=
    { s with
      RunningNode := some node
      LastRunNode := some node
      CurrentOutput := out1
      TestOutputs := to1
      NodeStatus := st1 }
  match PrepareJob hasPkg buildCmd node.Path with
  | none =>
    let outErr := s2.CurrentOutput ++ "Error: Could not find package.json\n"
    let stF := aset s2.NodeStatus node.Path TestStatus.StatusFail
    ({ s2 with CurrentOutput := outErr, NodeStatus := stF }, none)
  | some job =>
    let toJ := aset s2.TestOutputs node.Path s2.CurrentOutput
    ({ s2 with TestOutputs := toJ }, some job)

/-- The queueing loop of the `WatcherMsg` case: append each watched path
not already in the queue. -/

def enqueueWatched (watched queue : List String) : List String :=
  watched.foldl (fun q w => if w ∈ q then q else q ++ [w]) queue

/-- The `WatcherMsg` case of `Engine.Update`: update the graph, enqueue
every watched file, and when idle dequeue the head and trigger it.  The
parse result for the changed file is the explicit `parse` argument. -/

def processWatcherMsg (hasPkg : String → Bool)
    (buildCmd : String → String → String × List String)
    (g : Graph) (parse : Option ImportResult) (s : EState) (path : String) :
    Graph × EState × Option TestJob :=
  let g2 := g.Update path parse
  let q2 := enqueueWatched s.Watched s.Queue
  let s2 : EState := { s with Queue := q2 }
  match s2.RunningNode, q2 with
  | none, nextPath :: restQ =>
    let node : ENode := ⟨basename nextPath, nextPath⟩
    let r := TriggerTest hasPkg buildCmd { s2 with Queue := restQ } node
    (g2, r.1, r.2)
  | _, _ => (g2, s2, none)

/-- `engine.NewState`. -/

def NewState (rootPath : String) : EState :=
  ⟨[], [], [], [], none, none, "", rootPath⟩

/-- The mocked-import scenario: `real.test.ts` imports `u.ts` normally,
`mock.test.ts` imports it under `jest.mock`. -/

def scenario6Calls : List (String × Option ImportResult) :=
  [("/r/u.ts", some ⟨[], []⟩),
   ("/r/real.test.ts", some ⟨[⟨"/r/u.ts", false⟩], []⟩),
   ("/r/mock.test.ts", some ⟨[⟨"/r/u.ts", true⟩], []⟩)]

/-- Both test files watched, queue empty, another test currently running. -/

def scenario6State : EState :=
  ⟨["/r/real.test.ts", "/r/mock.test.ts"], [], [], [],
   some ⟨"other.test.ts", "/r/other.test.ts"⟩, none, "", "/r"⟩

/-- The queue-dedup scenario: the running test's own path is watched and
not currently queued. -/

def scenario9State : EState :=
  ⟨["/r/q.test.ts"], [], [], [], some ⟨"q.test.ts", "/r/q.test.ts"⟩,
   none, "", "/r"⟩

/-- Substring occurrence test over exploded strings. -/

def containsSub (sub : List Char) : List Char → Bool
  | [] => isPrefixChars sub []
  | c :: rest => isPrefixChars sub (c :: rest) || containsSub sub rest

/-- The single-quote character, written by code point. -/

def quoteChar : Char := Char.ofNat 39

/-- Modelled from the spec: a specifier is mocked when the file text
contains an occurrence of one of the three call patterns
`jest.mock(<q><spec><q>)`, `jest.doMock(<q><spec><q>,` or
`jest.setMock(<q><spec><q>,` (with `<q>` the single-quote character). -/

def isMockedSpec (text : List Char) (s : String) : Bool :=
  containsSub ("jest.mock(".data ++ quoteChar :: s.data ++
    quoteChar :: ")".data) text ||
  containsSub ("jest.doMock(".data ++ quoteChar :: s.data ++
    quoteChar :: ",".data) text ||
  containsSub ("jest.setMock(".data ++ quoteChar :: s.data ++
    quoteChar :: ",".data) text

/-- Modelled from the spec: step 4 of `parse(file_path)` for one raw
specifier — discard non-relative specifiers, look the normalized key up
on disk, and record a resolved or unresolved entry whose kind is mocked
exactly when the specifier is in the file's mocked set.  The path
normalization (`absKey`) and the on-disk suffix resolution (`disk`) read
the filesystem and are explicit oracles. -/

def parseStep (text : List Char) (absKey : String → String)
    (disk : String → Option String) (acc : ImportResult) (s : String) :
    ImportResult :=
  if isPrefixChars ".".data s.data = true then
    match disk (absKey s) with
    | some found =>
      ⟨acc.Resolved ++ [⟨found, isMockedSpec text s⟩], acc.Unresolved⟩
    | none =>
      ⟨acc.Resolved, acc.Unresolved ++ [⟨absKey s, isMockedSpec text s⟩]⟩
  else acc

/-- Modelled from the spec: `parse(file_path)` over the raw specifiers
extracted in step 2 (given as input, in textual order). -/

def ParseImports (text : List Char) (specs : List String)
    (absKey : String → String) (disk : String → Option String) :
    ImportResult :=
  specs.foldl (parseStep text absKey disk) ⟨[], []⟩

/-- The file text of the mock-declaring test: exactly one
`jest.mock(<q>./u<q>)` call. -/

def c2text : List Char :=
  "jest.mock(".data ++ quoteChar :: "./u".data ++ quoteChar :: ")".data

/-- Path-normalization oracle for the two-import scenario. -/

def c2absKey : String → String :=
  fun s => if s == "./u" then "/r/u" else "/r/v"

/-- Disk-resolution oracle for the two-import scenario. -/

def c2disk : String → Option String :=
  fun k => if k == "/r/u" then some "/r/u.ts"
    else if k == "/r/v" then some "/r/v.ts" else none

/-! ## The runner (`src/runner/runner.go`)

`Run` spawns a process and goroutines; the embedding is a trace model.
Each `Run` call is a run id.  Its events: `start` is the mutex-protected
section of `Run` (cancel the previous command, set `currCmd`); `out` is
one `OutputUpdate` send (a streamed line, or the error line of the
failure paths); `failStatus` is the unconditional `StatusUpdate` send of
the pipe/start failure paths; `wait` is the wait goroutine's
mutex-protected section, which sends `StatusUpdate` exactly when
`currCmd` still points at this run (`shouldReport`).  A trace is any
interleaving of such events; the state fold below is the shared
`currCmd`, and `runTrace` is the resulting content of the `Updates`
channel, in send order. -/

inductive REvent where
  | start (r : Nat)
  | out (r : Nat) (i : Nat)
  | failStatus (r : Nat)
  | wait (r : Nat)
deriving DecidableEq

inductive RMsg where
  | output (r i : Nat)
  | status (r : Nat)
deriving DecidableEq

/-- `r.currCmd` after one event (the mutex serializes these updates). -/

def stepCurr (curr : Option Nat) : REvent → Option Nat
  | .start r => some r
  | .wait r => if curr = some r then none else curr
  | _ => curr

/-- The messages one event sends on `Updates`. -/

def emitMsgs (curr : Option Nat) : REvent → List RMsg
  | .out r i => [.output r i]
  | .failStatus r => [.status r]
  | .wait r => if curr = some r then [.status r] else []
  | .start _ => []

/-- The `Updates` channel content produced by a trace. -/

def runTrace (curr : Option Nat) : List REvent → List RMsg
  | [] => []
  | e :: es => emitMsgs curr e ++ runTrace (stepCurr curr e) es

def foldCurr (curr : Option Nat) (l : List REvent) : Option Nat :=
  l.foldl stepCurr curr

theorem alookup_eq_none (l : List (String × β)) (k : String) :
    alookup l k = none ↔ ∀ v, (k, v) ∉ l := by
  induction l with
  | nil => simp [alookup]
  | cons p rest ih =>
    obtain ⟨k', v'⟩ := p
    by_cases h : k' = k
    · subst h
      simp only [alookup, if_pos rfl]
      constructor
      · intro h
        exact absurd h (by simp)
      · intro hall
        exact absurd (List.mem_cons_self _ _) (hall v')
    · simp only [alookup, if_neg h, ih]
      constructor
      · intro hall v hv
        rcases List.mem_cons.mp hv with heq | hmem
        · exact h (by injection heq with h1 _; exact h1.symm) |>.elim
        · exact hall v hmem
      · intro hall v hv
        exact hall v (List.mem_cons_of_mem _ hv)

theorem alookup_aerase (l : List (String × β)) (k : String) :
    alookup (aerase l k) k = none := by
  induction l with
  | nil => simp [aerase, alookup]
  | cons p rest ih =>
    obtain ⟨k', v'⟩ := p
    by_cases h : k' = k
    · subst h
      simpa [aerase, alookup] using ih
    · simpa [aerase, alookup, h] using ih

theorem alookup_aerase_ne (l : List (String × β)) (k k' : String) (h : k' ≠ k) :
    alookup (aerase l k) k' = alookup l k' := by
  induction l with
  | nil => simp [aerase]
  | cons p rest ih =>
    obtain ⟨k₀, v₀⟩ := p
    by_cases hk : k₀ = k
    · subst hk
      have : k₀ ≠ k' := fun hc => h (hc ▸ rfl)
      simpa [aerase, alookup, this] using ih
    · by_cases hk' : k₀ = k'
      · subst hk'
        simp [aerase, alookup, hk]
      · simpa [aerase, alookup, hk, hk'] using ih

theorem alookup_aset (l : List (String × β)) (k : String) (v : β) :
    alookup (aset l k v) k = some v := by
  simp [aset, alookup]

theorem alookup_aset_ne (l : List (String × β)) (k k' : String) (v : β) (h : k' ≠ k) :
    alookup (aset l k v) k' = alookup l k' := by
  have : k ≠ k' := fun hc => h hc.symm
  simp [aset, alookup, this, alookup_aerase_ne l k k' h]

theorem alookup_mem {l : List (String × β)} {k : String} {v : β}
    (h : alookup l k = some v) : (k, v) ∈ l := by
  induction l with
  | nil => simp [alookup] at h
  | cons p rest ih =>
    obtain ⟨k', v'⟩ := p
    by_cases hk : k' = k
    · subst hk
      simp [alookup] at h
      simp [h]
    · simp only [alookup, if_neg hk] at h
      exact List.mem_cons_of_mem _ (ih h)

theorem bfsVisit_spec (entries : DepMap) :
    ∀ visited dependents queue, ∃ extra,
      bfsVisit entries visited dependents queue =
        (visited ++ extra, dependents ++ extra, queue ++ extra) ∧
      (∀ x ∈ extra, x ∈ akeys entries ∧ x ∉ visited) ∧
      extra.Nodup ∧
      (∀ x ∈ akeys entries, x ∈ visited ++ extra) := by
  induction entries with
  | nil =>
    intro visited dependents queue
    exact ⟨[], by simp [bfsVisit, akeys]⟩
  | cons e es ih =>
    intro visited dependents queue
    by_cases hv : e.1 ∈ visited
    · obtain ⟨extra, heq, hmem, hnd, hcov⟩ := ih visited dependents queue
      refine ⟨extra, ?_, ?_, hnd, ?_⟩
      · simpa [bfsVisit, hv] using heq
      · intro x hx
        obtain ⟨h1, h2⟩ := hmem x hx
        refine ⟨?_, h2⟩
        simp only [akeys, List.map_cons, List.mem_cons]
        right
        simpa [akeys] using h1
      · intro x hx
        simp only [akeys, List.map_cons, List.mem_cons] at hx
        rcases hx with hx | hx
        · exact List.mem_append.mpr (Or.inl (hx ▸ hv))
        · exact hcov x (by simpa [akeys] using hx)
    · obtain ⟨extra, heq, hmem, hnd, hcov⟩ :=
        ih (visited ++ [e.1]) (dependents ++ [e.1]) (queue ++ [e.1])
      refine ⟨e.1 :: extra, ?_, ?_, ?_, ?_⟩
      · have : bfsVisit (e :: es) visited dependents queue =
            bfsVisit es (visited ++ [e.1]) (dependents ++ [e.1])
              (queue ++ [e.1]) := by
          simp [bfsVisit, hv]
        rw [this, heq]
        simp
      · intro x hx
        rcases List.mem_cons.mp hx with hx | hx
        · subst hx
          exact ⟨by simp [akeys], hv⟩
        · obtain ⟨h1, h2⟩ := hmem x hx
          refine ⟨by simp [akeys] at h1 ⊢; exact Or.inr h1, ?_⟩
          intro hc
          exact h2 (List.mem_append.mpr (Or.inl hc))
      · refine List.nodup_cons.mpr ⟨?_, hnd⟩
        intro hc
        have := (hmem e.1 hc).2
        exact this (by simp)
      · intro x hx
        simp only [akeys, List.map_cons, List.mem_cons] at hx
        rcases hx with hx | hx
        · subst hx
          simp
        · have := hcov x hx
          simp only [List.append_assoc, List.singleton_append] at this ⊢
          simpa using this

theorem length_filter_le_of_imp (l : List α) (p q : α → Bool)
    (himp : ∀ a, q a = true → p a = true) :
    (l.filter q).length ≤ (l.filter p).length := by
  induction l with
  | nil => simp
  | cons x xs ih =>
    by_cases hq : q x = true
    · simp [List.filter_cons, hq, himp x hq]
      omega
    · have hq' : q x = false := by
        cases h : q x
        · rfl
        · exact absurd h hq
      by_cases hp : p x = true
      · simp [List.filter_cons, hq', hp]
        omega
      · have hp' : p x = false := by
          cases h : p x
          · rfl
          · exact absurd h hp
        simp [List.filter_cons, hq', hp']
        exact ih

theorem length_filter_lt_of_imp (l : List α) (p q : α → Bool)
    (himp : ∀ a, q a = true → p a = true) (a : α) (ha : a ∈ l)
    (hpa : p a = true) (hqa : q a = false) :
    (l.filter q).length < (l.filter p).length := by
  induction l with
  | nil => simp at ha
  | cons x xs ih =>
    rcases List.mem_cons.mp ha with rfl | hmem
    · simp [List.filter_cons, hqa, hpa]
      have := length_filter_le_of_imp xs p q himp
      omega
    · by_cases hq : q x = true
      · simp [List.filter_cons, hq, himp x hq]
        exact ih hmem
      · have hq' : q x = false := by
          cases h : q x
          · rfl
          · exact absurd h hq
        by_cases hp : p x = true
        · simp [List.filter_cons, hq', hp]
          have := ih hmem
          omega
        · have hp' : p x = false := by
            cases h : p x
            · rfl
            · exact absurd h hp
          simp [List.filter_cons, hq', hp']
          exact ih hmem

theorem unvisitedCount_lt (univ visited extra : List String) (x : String)
    (hx : x ∈ extra) (hxu : x ∈ univ) (hxv : x ∉ visited) :
    unvisitedCount univ (visited ++ extra) < unvisitedCount univ visited := by
  have himp : ∀ a : String, (decide (a ∉ visited ++ extra)) = true →
      (decide (a ∉ visited)) = true := by
    intro a hq
    simp at hq ⊢
    exact hq.1
  have hqa : (decide (x ∉ visited ++ extra)) = false := by
    simp [List.mem_append]
    exact fun _ => hx
  have := length_filter_lt_of_imp univ
    (fun y => decide (y ∉ visited)) (fun y => decide (y ∉ visited ++ extra))
    himp x hxu (by simpa using hxv) hqa
  simpa [unvisitedCount] using this

theorem unvisitedCount_le (univ visited extra : List String) :
    unvisitedCount univ (visited ++ extra) ≤ unvisitedCount univ visited := by
  apply length_filter_le_of_imp
  intro a hq
  simp at hq ⊢
  exact hq.1

theorem mem_foldr_keys {l : List (String × DepMap)} {pr : String × DepMap}
    (hmem : pr ∈ l) {x : String} (hx : x ∈ akeys pr.2) :
    x ∈ l.foldr (fun p acc => akeys p.2 ++ acc) [] := by
  induction l with
  | nil => simp at hmem
  | cons p rest ih =>
    rcases List.mem_cons.mp hmem with rfl | hmem'
    · simp only [List.foldr_cons, List.mem_append]
      exact Or.inl hx
    · simp only [List.foldr_cons, List.mem_append]
      exact Or.inr (ih hmem')

theorem mem_reverseUniv_of_inner {g : Graph} {current : String} {deps : DepMap}
    (hdep : alookup g.Reverse current = some deps) {x : String}
    (hx : x ∈ akeys deps) : x ∈ reverseUniv g := by
  have hmem := alookup_mem hdep
  simp only [reverseUniv, List.mem_append]
  exact Or.inr (mem_foldr_keys hmem hx)

theorem unvisitedCount_le_length (univ visited : List String) :
    unvisitedCount univ visited ≤ univ.length :=
  List.length_filter_le _ _

theorem unvisitedCount_drop (univ : List String) :
    ∀ (extra visited : List String), extra.Nodup →
      (∀ x ∈ extra, x ∈ univ ∧ x ∉ visited) →
      unvisitedCount univ (visited ++ extra) + extra.length ≤
        unvisitedCount univ visited := by
  intro extra
  induction extra with
  | nil =>
    intro visited _ _
    simp
  | cons x xs ih =>
    intro visited hnd hmem
    have hx := hmem x (List.mem_cons_self _ _)
    have h1 : unvisitedCount univ (visited ++ [x]) + 1 ≤
        unvisitedCount univ visited := by
      have := unvisitedCount_lt univ visited [x] x (by simp) hx.1 hx.2
      omega
    have hxs : ∀ y ∈ xs, y ∈ univ ∧ y ∉ visited ++ [x] := by
      intro y hy
      obtain ⟨h2, h3⟩ := hmem y (List.mem_cons_of_mem _ hy)
      refine ⟨h2, ?_⟩
      intro hc
      rcases List.mem_append.mp hc with hc | hc
      · exact h3 hc
      · simp at hc
        subst hc
        exact (List.nodup_cons.mp hnd).1 hy
    have h2 := ih (visited ++ [x]) (List.nodup_cons.mp hnd).2 hxs
    have hassoc : visited ++ x :: xs = (visited ++ [x]) ++ xs := by simp
    rw [hassoc]
    simp only [List.length_cons]
    omega

theorem reach_mem_closed (g : Graph) (p : String) (visited : List String)
    (hp : p ∈ visited)
    (hcl : ∀ x ∈ visited, ∀ ds, alookup g.Reverse x = some ds →
      ∀ y ∈ akeys ds, y ∈ visited) :
    ∀ y, Relation.TransGen (revStep g) p y → y ∈ visited := by
  intro y hy
  induction hy with
  | single h =>
    obtain ⟨ds, hd, hk⟩ := h
    exact hcl p hp ds hd _ hk
  | tail h1 h2 ih2 =>
    obtain ⟨ds, hd, hk⟩ := h2
    exact hcl _ ih2 ds hd _ hk

theorem getDependentsAux_base (g : Graph) (p : String)
    (visited dependents : List String)
    (hA : visited = p :: dependents)
    (hnd : visited.Nodup)
    (hB : ∀ x ∈ dependents, Relation.TransGen (revStep g) p x)
    (hE : ∀ x ∈ visited, ∀ ds, alookup g.Reverse x = some ds →
      ∀ y ∈ akeys ds, y ∈ visited) :
    (∀ x ∈ dependents, Relation.TransGen (revStep g) p x) ∧
    dependents.Nodup ∧ p ∉ dependents ∧
    (∀ y ∈ visited, y ∈ p :: dependents) ∧
    (∀ y, Relation.TransGen (revStep g) p y → y ∈ p :: dependents) := by
  have hpd := List.nodup_cons.mp (hA ▸ hnd)
  refine ⟨hB, hpd.2, hpd.1, ?_, ?_⟩
  · intro y hy
    rw [hA] at hy
    exact hy
  · intro y hy
    have hyv : y ∈ visited :=
      reach_mem_closed g p visited (by rw [hA]; exact List.mem_cons_self _ _)
        hE y hy
    rwa [hA] at hyv

theorem getDependentsAux_spec (g : Graph) (p : String) :
    ∀ (fuel : Nat) (queue visited dependents : List String),
      queue.length + unvisitedCount (reverseUniv g) visited ≤ fuel →
      visited = p :: dependents →
      visited.Nodup →
      (∀ x ∈ queue, x ∈ visited) →
      (∀ x ∈ dependents, Relation.TransGen (revStep g) p x) →
      (∀ x ∈ queue, x = p ∨ Relation.TransGen (revStep g) p x) →
      (∀ x ∈ visited, x ∉ queue → ∀ ds, alookup g.Reverse x = some ds →
        ∀ y ∈ akeys ds, y ∈ visited) →
      (∀ x ∈ g.getDependentsAux fuel queue visited dependents,
          Relation.TransGen (revStep g) p x) ∧
      (g.getDependentsAux fuel queue visited dependents).Nodup ∧
      p ∉ g.getDependentsAux fuel queue visited dependents ∧
      (∀ y ∈ visited, y ∈ p :: g.getDependentsAux fuel queue visited dependents) ∧
      (∀ y, Relation.TransGen (revStep g) p y →
        y ∈ p :: g.getDependentsAux fuel queue visited dependents) := by
  intro fuel
  induction fuel with
  | zero =>
    intro queue visited dependents hfuel hA hnd hD hB hQ hE
    have hq : queue = [] := by
      cases queue with
      | nil => rfl
      | cons c cs => simp at hfuel
    subst hq
    exact getDependentsAux_base g p visited dependents hA hnd hB
      (fun x hx ds hds => hE x hx (by simp) ds hds)
  | succ fuel ih =>
    intro queue visited dependents hfuel hA hnd hD hB hQ hE
    cases queue with
    | nil =>
      exact getDependentsAux_base g p visited dependents hA hnd hB
        (fun x hx ds hds => hE x hx (by simp) ds hds)
    | cons current rest =>
      cases hdep : alookup g.Reverse current with
      | none =>
        have hE2 : ∀ x ∈ visited, x ∉ rest → ∀ ds, alookup g.Reverse x = some ds →
            ∀ y ∈ akeys ds, y ∈ visited := by
          intro x hxv hxr ds hds y hyk
          by_cases hxc : x = current
          · subst hxc
            rw [hds] at hdep
            cases hdep
          · have hnq : x ∉ current :: rest := by
              intro hc
              rcases List.mem_cons.mp hc with rfl | hc
              · exact hxc rfl
              · exact hxr hc
            exact hE x hxv hnq ds hds y hyk
        have hfuel2 : rest.length + unvisitedCount (reverseUniv g) visited ≤ fuel := by
          simp only [List.length_cons] at hfuel
          omega
        have res := ih rest visited dependents hfuel2 hA hnd
          (fun x hx => hD x (List.mem_cons_of_mem _ hx)) hB
          (fun x hx => hQ x (List.mem_cons_of_mem _ hx)) hE2
        have hgoal : Graph.getDependentsAux g (fuel + 1) (current :: rest)
            visited dependents =
            Graph.getDependentsAux g fuel rest visited dependents := by
          simp only [Graph.getDependentsAux, hdep]
        rw [hgoal]
        exact res
      | some deps =>
        obtain ⟨extra, heq, hmem, hndx, hcov⟩ :=
          bfsVisit_spec deps visited dependents rest
        have hcur : current = p ∨ Relation.TransGen (revStep g) p current :=
          hQ current (List.mem_cons_self _ _)
        have hreach : ∀ x ∈ extra, Relation.TransGen (revStep g) p x := by
          intro x hx
          have hstep : revStep g current x := ⟨deps, hdep, (hmem x hx).1⟩
          rcases hcur with rfl | hcur
          · exact Relation.TransGen.single hstep
          · exact Relation.TransGen.tail hcur hstep
        have hfuel2 : (rest ++ extra).length +
            unvisitedCount (reverseUniv g) (visited ++ extra) ≤ fuel := by
          have hdropped := unvisitedCount_drop (reverseUniv g) extra visited hndx
            (fun x hx => ⟨mem_reverseUniv_of_inner hdep (hmem x hx).1,
              (hmem x hx).2⟩)
          simp only [List.length_cons, List.length_append] at hfuel ⊢
          omega
        have hA2 : visited ++ extra = p :: (dependents ++ extra) := by
          rw [hA]
          rfl
        have hnd2 : (visited ++ extra).Nodup := by
          refine List.Nodup.append hnd hndx ?_
          intro a ha hax
          exact (hmem a hax).2 ha
        have hD2 : ∀ x ∈ rest ++ extra, x ∈ visited ++ extra := by
          intro x hx
          rcases List.mem_append.mp hx with hx | hx
          · exact List.mem_append.mpr (Or.inl (hD x (List.mem_cons_of_mem _ hx)))
          · exact List.mem_append.mpr (Or.inr hx)
        have hB2 : ∀ x ∈ dependents ++ extra,
            Relation.TransGen (revStep g) p x := by
          intro x hx
          rcases List.mem_append.mp hx with hx | hx
          · exact hB x hx
          · exact hreach x hx
        have hQ2 : ∀ x ∈ rest ++ extra,
            x = p ∨ Relation.TransGen (revStep g) p x := by
          intro x hx
          rcases List.mem_append.mp hx with hx | hx
          · exact hQ x (List.mem_cons_of_mem _ hx)
          · exact Or.inr (hreach x hx)
        have hE2 : ∀ x ∈ visited ++ extra, x ∉ rest ++ extra →
            ∀ ds, alookup g.Reverse x = some ds → ∀ y ∈ akeys ds,
              y ∈ visited ++ extra := by
          intro x hxv hxq ds hds y hyk
          rcases List.mem_append.mp hxv with hxv | hxv
          · by_cases hxc : x = current
            · subst hxc
              rw [hdep] at hds
              cases hds
              exact hcov y hyk
            · have hnq : x ∉ current :: rest := by
                intro hc
                rcases List.mem_cons.mp hc with rfl | hc
                · exact hxc rfl
                · exact hxq (List.mem_append.mpr (Or.inl hc))
              exact List.mem_append.mpr (Or.inl (hE x hxv hnq ds hds y hyk))
          · exact absurd (List.mem_append.mpr (Or.inr hxv)) hxq
        obtain ⟨r1, r2, r3, r4, r5⟩ := ih (rest ++ extra) (visited ++ extra)
          (dependents ++ extra) hfuel2 hA2 hnd2 hD2 hB2 hQ2 hE2
        have hgoal : Graph.getDependentsAux g (fuel + 1) (current :: rest)
            visited dependents =
            Graph.getDependentsAux g fuel (rest ++ extra) (visited ++ extra)
              (dependents ++ extra) := by
          simp only [Graph.getDependentsAux, hdep, heq]
        refine ⟨?_, ?_, ?_, ?_, ?_⟩
        · rw [hgoal]
          exact r1
        · rw [hgoal]
          exact r2
        · rw [hgoal]
          exact r3
        · rw [hgoal]
          intro y hy
          exact r4 y (List.mem_append.mpr (Or.inl hy))
        · rw [hgoal]
          exact r5

/-- Full characterisation of `GetDependents`: its members are exactly the
nodes reachable from `p` in one or more reverse steps, other than `p`
itself, and the output has no duplicates. -/

theorem GetDependents_spec (g : Graph) (p : String) :
    (∀ y, y ∈ g.GetDependents p ↔
      Relation.TransGen (revStep g) p y ∧ y ≠ p) ∧
    (g.GetDependents p).Nodup := by
  have hfuel : ([p] : List String).length +
      unvisitedCount (reverseUniv g) [p] ≤ (reverseUniv g).length + 1 := by
    have := unvisitedCount_le_length (reverseUniv g) [p]
    simp only [List.length_singleton]
    omega
  have h := getDependentsAux_spec g p ((reverseUniv g).length + 1) [p] [p] []
    hfuel rfl (by simp) (by simp)
    (by intro x hx; simp at hx)
    (by intro x hx; simp at hx; exact Or.inl hx)
    (by intro x hxv hxq; simp at hxv; exact absurd (by simp [hxv]) hxq)
  obtain ⟨r1, r2, r3, r4, r5⟩ := h
  constructor
  · intro y
    constructor
    · intro hy
      refine ⟨r1 y hy, ?_⟩
      intro hc
      exact r3 (hc ▸ hy)
    · intro ⟨hreach, hne⟩
      have hm := r5 y hreach
      rcases List.mem_cons.mp hm with rfl | hm
      · exact absurd rfl hne
      · exact hm
  · exact r2

theorem alookup_mem_keys {l : List (String × β)} {k : String} {v : β}
    (h : alookup l k = some v) : k ∈ akeys l := by
  have := alookup_mem h
  simp only [akeys, List.mem_map]
  exact ⟨(k, v), this, rfl⟩

theorem fwd_setForward (g : Graph) (a b : String) (k : DependencyType)
    (x y : String) :
    (g.setForward a b k).fwd x y =
      if x = a ∧ y = b then some k else g.fwd x y := by
  simp only [Graph.setForward, Graph.fwd]
  by_cases hx : x = a
  · subst hx
    rw [alookup_aset]
    simp only [Option.some_bind, true_and]
    by_cases hy : y = b
    · subst hy
      simp [alookup_aset]
    · rw [alookup_aset_ne _ b y k hy]
      simp only [hy, if_false]
      cases hf : alookup g.Forward x with
      | none => simp [alookup]
      | some inner => simp
  · have hxne : x ≠ a := hx
    rw [alookup_aset_ne _ a x _ hxne]
    simp [hx]

theorem reverse_setForward (g : Graph) (a b : String) (k : DependencyType) :
    (g.setForward a b k).Reverse = g.Reverse := rfl

theorem pending_setForward (g : Graph) (a b : String) (k : DependencyType) :
    (g.setForward a b k).PendingImports = g.PendingImports := rfl

theorem rev_addReverseDependency (g : Graph) (d t : String) (k : DependencyType)
    (x y : String) :
    (g.addReverseDependency d t k).rev x y =
      if x = d ∧ y = t then some k else g.rev x y := by
  simp only [Graph.addReverseDependency, Graph.rev]
  by_cases hx : x = d
  · subst hx
    rw [alookup_aset]
    simp only [Option.some_bind, true_and]
    by_cases hy : y = t
    · subst hy
      simp [alookup_aset]
    · rw [alookup_aset_ne _ t y k hy]
      simp only [hy, if_false]
      cases hf : alookup g.Reverse x with
      | none => simp [alookup]
      | some inner => simp
  · have hxne : x ≠ d := hx
    rw [alookup_aset_ne _ d x _ hxne]
    simp [hx]

theorem forward_addReverseDependency (g : Graph) (d t : String)
    (k : DependencyType) : (g.addReverseDependency d t k).Forward = g.Forward :=
  rfl

theorem pending_addReverseDependency (g : Graph) (d t : String)
    (k : DependencyType) :
    (g.addReverseDependency d t k).PendingImports = g.PendingImports := rfl

theorem alookup_of_aerase_nil {l : List (String × β)} {k : String}
    (h : aerase l k = []) (a : String) (ha : a ≠ k) : alookup l a = none := by
  cases hl : alookup l a with
  | none => rfl
  | some v =>
    have hmem := alookup_mem hl
    have : (a, v) ∈ aerase l k := by
      simp only [aerase, List.mem_filter]
      exact ⟨hmem, by simpa using ha⟩
    rw [h] at this
    simp at this

theorem rev_removeReverseDependency (g : Graph) (d t : String) (x y : String) :
    (g.removeReverseDependency d t).rev x y =
      if x = d ∧ y = t then none else g.rev x y := by
  unfold Graph.removeReverseDependency
  cases hl : alookup g.Reverse d with
  | none =>
    by_cases hx : x = d
    · subst hx
      by_cases hy : y = t
      · subst hy
        simp [Graph.rev, hl]
      · simp [hy, Graph.rev]
    · simp [hx]
  | some deps =>
    by_cases hempty : (aerase deps t).isEmpty
    · have hnil : aerase deps t = [] := by
        simpa [List.isEmpty_iff] using hempty
      simp only [hempty, if_true, Graph.rev]
      by_cases hx : x = d
      · subst hx
        rw [alookup_aerase]
        simp only [Option.none_bind]
        by_cases hy : y = t
        · simp [hy]
        · have hys : alookup deps y = none := alookup_of_aerase_nil hnil y hy
          simp [hy, hl, hys]
      · have hxne : x ≠ d := hx
        rw [alookup_aerase_ne _ d x hxne]
        simp [hx, Graph.rev]
    · have hf : (aerase deps t).isEmpty = false := by
        simpa using hempty
      simp only [hf, Bool.false_eq_true, if_false, Graph.rev]
      by_cases hx : x = d
      · subst hx
        rw [alookup_aset]
        simp only [Option.some_bind]
        by_cases hy : y = t
        · subst hy
          simp [alookup_aerase]
        · rw [alookup_aerase_ne _ t y hy]
          simp [hy, hl]
      · have hxne : x ≠ d := hx
        rw [alookup_aset_ne _ d x _ hxne]
        simp [hx]

theorem forward_removeReverseDependency (g : Graph) (d t : String) :
    (g.removeReverseDependency d t).Forward = g.Forward := by
  unfold Graph.removeReverseDependency
  cases alookup g.Reverse d with
  | none => rfl
  | some deps =>
    by_cases h : (aerase deps t).isEmpty
    · simp [h]
    · simp [h]

theorem pending_removeReverseDependency (g : Graph) (d t : String) :
    (g.removeReverseDependency d t).PendingImports = g.PendingImports := by
  unfold Graph.removeReverseDependency
  cases alookup g.Reverse d with
  | none => rfl
  | some deps =>
    by_cases h : (aerase deps t).isEmpty
    · simp [h]
    · simp [h]

theorem forward_addPendingImport (g : Graph) (ip d : String)
    (k : DependencyType) : (g.addPendingImport ip d k).Forward = g.Forward := rfl

theorem reverse_addPendingImport (g : Graph) (ip d : String)
    (k : DependencyType) : (g.addPendingImport ip d k).Reverse = g.Reverse := rfl

theorem foldl_preserve {α : Type _} (P : Graph → Prop) (f : Graph → α → Graph)
    (hf : ∀ g x, P g → P (f g x)) :
    ∀ (l : List α) (g : Graph), P g → P (l.foldl f g) := by
  intro l
  induction l with
  | nil =>
    intro g hg
    simpa using hg
  | cons x xs ih =>
    intro g hg
    simpa using ih _ (hf g x hg)

theorem forward_foldl_remove (path : String) :
    ∀ (l : DepMap) (g : Graph),
      (l.foldl (fun (h : Graph) (p : String × DependencyType) =>
          h.removeReverseDependency p.1 path) g).Forward = g.Forward := by
  intro l
  induction l with
  | nil => intro g; rfl
  | cons p ps ih =>
    intro g
    rw [List.foldl_cons, ih, forward_removeReverseDependency]

theorem pending_foldl_remove (path : String) :
    ∀ (l : DepMap) (g : Graph),
      (l.foldl (fun (h : Graph) (p : String × DependencyType) =>
          h.removeReverseDependency p.1 path) g).PendingImports =
        g.PendingImports := by
  intro l
  induction l with
  | nil => intro g; rfl
  | cons p ps ih =>
    intro g
    rw [List.foldl_cons, ih, pending_removeReverseDependency]

theorem akeys_cons (p : String × β) (ps : List (String × β)) :
    akeys (p :: ps) = p.1 :: akeys ps := rfl

theorem rev_foldl_remove (path : String) :
    ∀ (l : DepMap) (g : Graph) (x y : String),
      (l.foldl (fun (h : Graph) (p : String × DependencyType) =>
          h.removeReverseDependency p.1 path) g).rev x y =
        if x ∈ akeys l ∧ y = path then none else g.rev x y := by
  intro l
  induction l with
  | nil =>
    intro g x y
    simp [akeys]
  | cons p ps ih =>
    intro g x y
    rw [List.foldl_cons, ih, rev_removeReverseDependency, akeys_cons]
    by_cases hy : y = path
    · subst hy
      by_cases hmem : x ∈ akeys ps
      · simp [List.mem_cons, hmem]
      · by_cases hxp : x = p.1
        · subst hxp
          simp [List.mem_cons, hmem]
        · simp [List.mem_cons, hmem, hxp]
    · simp [hy]

/-- The forward-map lookup after `g.Forward[path] = make(...)`. -/

theorem fwd_resetPath (h : Graph) (path : String) (x y : String) :
    ({ h with Forward := aset h.Forward path [] } : Graph).fwd x y =
      if x = path then none else h.fwd x y := by
  simp only [Graph.fwd]
  by_cases hx : x = path
  · subst hx
    rw [alookup_aset]
    simp [alookup]
  · rw [alookup_aset_ne _ _ _ _ hx]
    simp [hx]

theorem Mirror_clear_none (g : Graph) (path : String) (hm : Mirror g)
    (hfp : alookup g.Forward path = none) :
    Mirror { g with Forward := aset g.Forward path [] } := by
  intro a b k
  rw [fwd_resetPath]
  have hrev : ({ g with Forward := aset g.Forward path [] } : Graph).rev b a =
      g.rev b a := rfl
  rw [hrev]
  by_cases ha : a = path
  · subst ha
    simp only [if_pos rfl]
    constructor
    · intro hc
      cases hc
    · intro hc
      have := (hm a b k).mpr hc
      simp [Graph.fwd, hfp] at this
  · rw [if_neg ha]
    exact hm a b k

theorem Mirror_clear_some (g : Graph) (path : String) (oldDeps : DepMap)
    (hm : Mirror g) (hfp : alookup g.Forward path = some oldDeps) :
    Mirror
      (let g1 := oldDeps.foldl (fun (h : Graph) (p : String × DependencyType) =>
        h.removeReverseDependency p.1 path) g
      { g1 with Forward := aset g1.Forward path [] }) := by
  intro a b k
  simp only []
  rw [fwd_resetPath]
  have hrev : ({ (oldDeps.foldl (fun (h : Graph) (p : String × DependencyType) =>
        h.removeReverseDependency p.1 path) g) with
        Forward := aset (oldDeps.foldl (fun (h : Graph) (p : String × DependencyType) =>
        h.removeReverseDependency p.1 path) g).Forward path [] } : Graph).rev b a =
      (oldDeps.foldl (fun (h : Graph) (p : String × DependencyType) =>
        h.removeReverseDependency p.1 path) g).rev b a := rfl
  rw [hrev, rev_foldl_remove]
  have hfwd1 : (oldDeps.foldl (fun (h : Graph) (p : String × DependencyType) =>
      h.removeReverseDependency p.1 path) g).fwd a b = g.fwd a b := by
    simp only [Graph.fwd, forward_foldl_remove]
  rw [hfwd1]
  by_cases ha : a = path
  · subst ha
    simp only [if_pos rfl, and_true]
    by_cases hb : b ∈ akeys oldDeps
    · simp only [if_pos hb]
      constructor
      · intro hc
        cases hc
      · intro hc
        cases hc
    · simp only [if_neg hb]
      constructor
      · intro hc
        cases hc
      · intro hc
        have := (hm a b k).mpr hc
        simp only [Graph.fwd, hfp, Option.some_bind] at this
        exact absurd (alookup_mem_keys this) hb
  · simp only [ha, and_false, if_false, if_neg ha]
    exact hm a b k

theorem Mirror_insertEdge (g : Graph) (src tgt : String) (k : DependencyType)
    (hm : Mirror g) :
    Mirror ((g.setForward src tgt k).addReverseDependency tgt src k) := by
  intro a b k'
  have hfwd : ((g.setForward src tgt k).addReverseDependency tgt src k).fwd a b
      = (g.setForward src tgt k).fwd a b := rfl
  have hrev : ((g.setForward src tgt k).addReverseDependency tgt src k).rev b a
      = (g.addReverseDependency tgt src k).rev b a := rfl
  rw [hfwd, hrev, fwd_setForward, rev_addReverseDependency]
  by_cases h1 : a = src ∧ b = tgt
  · rw [if_pos h1, if_pos ⟨h1.2, h1.1⟩]
  · have h2 : ¬ (b = tgt ∧ a = src) := fun hc => h1 ⟨hc.2, hc.1⟩
    rw [if_neg h1, if_neg h2]
    exact hm a b k'

theorem Mirror_insertEdge2 (g : Graph) (src tgt : String) (k : DependencyType)
    (hm : Mirror g) :
    Mirror ((g.addReverseDependency tgt src k).setForward src tgt k) := by
  intro a b k'
  have hfwd : ((g.addReverseDependency tgt src k).setForward src tgt k).fwd a b
      = (g.setForward src tgt k).fwd a b := rfl
  have hrev : ((g.addReverseDependency tgt src k).setForward src tgt k).rev b a
      = (g.addReverseDependency tgt src k).rev b a := rfl
  rw [hfwd, hrev, fwd_setForward, rev_addReverseDependency]
  by_cases h1 : a = src ∧ b = tgt
  · rw [if_pos h1, if_pos ⟨h1.2, h1.1⟩]
  · have h2 : ¬ (b = tgt ∧ a = src) := fun hc => h1 ⟨hc.2, hc.1⟩
    rw [if_neg h1, if_neg h2]
    exact hm a b k'

theorem Mirror_of_eq_fr {g g' : Graph} (hf : g'.Forward = g.Forward)
    (hr : g'.Reverse = g.Reverse) (hm : Mirror g) : Mirror g' := by
  intro a b k
  have := hm a b k
  simp only [Graph.fwd, Graph.rev] at this ⊢
  rw [hf, hr]
  exact this

theorem clearPhase_mirror (g : Graph) (path : String) (hm : Mirror g) :
    Mirror (g.clearPhase path) := by
  unfold Graph.clearPhase
  cases hfp : alookup g.Forward path with
  | none => exact Mirror_clear_none g path hm hfp
  | some oldDeps => exact Mirror_clear_some g path oldDeps hm hfp

theorem resolveStep_mirror (path : String) (h : Graph) (imp : ImportEntry)
    (hm : Mirror h) : Mirror (Graph.resolveStep path h imp) :=
  Mirror_insertEdge h path imp.Path _ hm

theorem pendingStep_mirror (path : String) (h : Graph) (u : ImportEntry)
    (hm : Mirror h) : Mirror (Graph.pendingStep path h u) :=
  Mirror_of_eq_fr rfl rfl hm

theorem candidateStep_mirror (path : String) (h : Graph) (c : String)
    (hm : Mirror h) : Mirror (Graph.candidateStep path h c) := by
  unfold Graph.candidateStep
  cases hp : alookup h.PendingImports c with
  | none => exact hm
  | some dependents =>
    refine Mirror_of_eq_fr rfl rfl ?_
    exact foldl_preserve Mirror _
      (fun g2 p hm2 => Mirror_insertEdge2 g2 p.1 path p.2 hm2)
      dependents h hm

/-- `Graph.Update` preserves the forward/reverse mirror invariant. -/

theorem Update_mirror (g : Graph) (path : String) (parse : Option ImportResult)
    (hm : Mirror g) : Mirror (g.Update path parse) := by
  unfold Graph.Update
  by_cases hsrc : isSourceFile (basename path)
  · simp only [hsrc, not_true_eq_false, if_false]
    cases parse with
    | none => exact hm
    | some result =>
      refine foldl_preserve Mirror _ (candidateStep_mirror path) (candidates path) _
        (foldl_preserve Mirror _ (pendingStep_mirror path) result.Unresolved _
          (foldl_preserve Mirror _ (resolveStep_mirror path) result.Resolved _
            (clearPhase_mirror g path hm)))
  · simp only [hsrc, not_false_eq_true, if_true]
    exact hm

theorem Mirror_empty : Mirror Graph.empty := by
  intro a b k
  simp [Graph.fwd, Graph.rev, Graph.empty, alookup]

theorem foldUpdates_preserve (P : Graph → Prop)
    (hP : ∀ g path parse, P g → P (g.Update path parse)) (hE : P Graph.empty)
    (calls : List (String × Option ImportResult)) : P (foldUpdates calls) := by
  unfold foldUpdates
  generalize hg0 : Graph.empty = g0
  rw [hg0] at hE
  clear hg0
  induction calls generalizing g0 with
  | nil => exact hE
  | cons c cs ih =>
    rw [List.foldl_cons]
    exact ih _ (hP g0 c.1 c.2 hE)

theorem foldUpdates_mirror (calls : List (String × Option ImportResult)) :
    Mirror (foldUpdates calls) :=
  foldUpdates_preserve Mirror Update_mirror Mirror_empty calls

theorem lastVal_acc (d : String) :
    ∀ (l : DepMap) (acc : Option DependencyType),
      l.foldl (fun acc p => if p.1 = d then some p.2 else acc) acc =
        match lastVal l d with
        | some k => some k
        | none => acc := by
  intro l
  induction l with
  | nil => intro acc; simp [lastVal]
  | cons p ps ih =>
    intro acc
    rw [List.foldl_cons, ih]
    have hl : lastVal (p :: ps) d =
        match lastVal ps d with
        | some k => some k
        | none => if p.1 = d then some p.2 else none := by
      show ps.foldl _ (if p.1 = d then some p.2 else none) = _
      rw [ih]
    rw [hl]
    cases lastVal ps d with
    | some k => rfl
    | none =>
      by_cases hp : p.1 = d
      · simp [hp]
      · simp [hp]

theorem lastVal_none {l : DepMap} {d : String} (h : d ∉ akeys l) :
    lastVal l d = none := by
  induction l with
  | nil => rfl
  | cons p ps ih =>
    have hne : p.1 ≠ d := by
      intro hc
      exact h (by simp [akeys, hc])
    have hd : d ∉ akeys ps := fun hc => h (by simp [akeys_cons, hc])
    show ps.foldl _ (if p.1 = d then some p.2 else none) = none
    rw [lastVal_acc, ih hd]
    simp [hne]

theorem lastVal_eq_alookup {l : DepMap} (hnd : (akeys l).Nodup) (d : String) :
    lastVal l d = alookup l d := by
  induction l with
  | nil => rfl
  | cons p ps ih =>
    rw [akeys_cons, List.nodup_cons] at hnd
    have hstep : lastVal (p :: ps) d =
        match lastVal ps d with
        | some k => some k
        | none => if p.1 = d then some p.2 else none := by
      show ps.foldl _ (if p.1 = d then some p.2 else none) = _
      rw [lastVal_acc]
    rw [hstep]
    by_cases hp : p.1 = d
    · subst hp
      rw [lastVal_none hnd.1]
      simp [alookup]
    · rw [ih hnd.2]
      cases ha : alookup ps d with
      | some k => simp [alookup, hp, ha]
      | none => simp [alookup, hp, ha]

theorem not_mem_akeys_of_alookup_none {l : List (String × β)} {d : String}
    (h : alookup l d = none) : d ∉ akeys l := by
  intro hc
  simp only [akeys, List.mem_map] at hc
  obtain ⟨p, hp, hpk⟩ := hc
  have := (alookup_eq_none l d).mp h p.2
  rw [← hpk] at this
  exact this hp

theorem fwd_setPending (g : Graph) (P : List (String × DepMap)) (x y : String) :
    ({ g with PendingImports := P } : Graph).fwd x y = g.fwd x y := rfl

theorem rev_setPending (g : Graph) (P : List (String × DepMap)) (x y : String) :
    ({ g with PendingImports := P } : Graph).rev x y = g.rev x y := rfl

/-! Characterisations of `candidateStep`'s inner linking fold. -/

theorem linkFold_pending (path : String) :
    ∀ (dts : DepMap) (h : Graph),
      (dts.foldl (fun (h2 : Graph) (p : String × DependencyType) =>
        (h2.addReverseDependency path p.1 p.2).setForward p.1 path p.2)
        h).PendingImports = h.PendingImports := by
  intro dts
  induction dts with
  | nil =>
    intro h
    rfl
  | cons p ps ih =>
    intro h
    rw [List.foldl_cons, ih]
    rfl

theorem linkFold_fwd (path : String) :
    ∀ (dts : DepMap) (h : Graph) (q y : String),
      (dts.foldl (fun (h2 : Graph) (p : String × DependencyType) =>
        (h2.addReverseDependency path p.1 p.2).setForward p.1 path p.2)
        h).fwd q y =
      if y = path then
        match lastVal dts q with
        | some k => some k
        | none => h.fwd q y
      else h.fwd q y := by
  intro dts
  induction dts with
  | nil =>
    intro h q y
    by_cases hy : y = path <;> simp [lastVal, hy]
  | cons p ps ih =>
    intro h q y
    rw [List.foldl_cons, ih]
    have hbody : ((h.addReverseDependency path p.1 p.2).setForward p.1 path
        p.2).fwd q y = if q = p.1 ∧ y = path then some p.2 else h.fwd q y := by
      rw [fwd_setForward]
      rfl
    have hlast : lastVal (p :: ps) q =
        match lastVal ps q with
        | some k => some k
        | none => if p.1 = q then some p.2 else none := by
      show ps.foldl _ (if p.1 = q then some p.2 else none) = _
      rw [lastVal_acc]
    rw [hlast, hbody]
    by_cases hy : y = path
    · simp only [hy, if_pos rfl, and_true]
      cases lastVal ps q with
      | some k => rfl
      | none =>
        by_cases hq : p.1 = q
        · subst hq
          simp
        · have hqr : q ≠ p.1 := fun hc => hq hc.symm
          simp [hq, hqr]
    · simp [hy]

theorem linkFold_rev (path : String) :
    ∀ (dts : DepMap) (h : Graph) (q y : String),
      (dts.foldl (fun (h2 : Graph) (p : String × DependencyType) =>
        (h2.addReverseDependency path p.1 p.2).setForward p.1 path p.2)
        h).rev q y =
      if q = path then
        match lastVal dts y with
        | some k => some k
        | none => h.rev q y
      else h.rev q y := by
  intro dts
  induction dts with
  | nil =>
    intro h q y
    by_cases hq : q = path <;> simp [lastVal, hq]
  | cons p ps ih =>
    intro h q y
    rw [List.foldl_cons, ih]
    have hbody : ((h.addReverseDependency path p.1 p.2).setForward p.1 path
        p.2).rev q y = if q = path ∧ y = p.1 then some p.2 else h.rev q y := by
      have hs : ((h.addReverseDependency path p.1 p.2).setForward p.1 path
          p.2).rev q y = (h.addReverseDependency path p.1 p.2).rev q y := rfl
      rw [hs, rev_addReverseDependency]
    have hlast : lastVal (p :: ps) y =
        match lastVal ps y with
        | some k => some k
        | none => if p.1 = y then some p.2 else none := by
      show ps.foldl _ (if p.1 = y then some p.2 else none) = _
      rw [lastVal_acc]
    rw [hlast, hbody]
    by_cases hq : q = path
    · simp only [hq, if_pos rfl, true_and]
      cases lastVal ps y with
      | some k => rfl
      | none =>
        by_cases hy : p.1 = y
        · subst hy
          simp
        · have hyr : y ≠ p.1 := fun hc => hy hc.symm
          simp [hy, hyr]
    · simp [hq]

theorem linkFold_forward_path (path : String) :
    ∀ (dts : DepMap) (h : Graph), path ∉ akeys dts →
      alookup (dts.foldl (fun (h2 : Graph) (p : String × DependencyType) =>
        (h2.addReverseDependency path p.1 p.2).setForward p.1 path p.2)
        h).Forward path = alookup h.Forward path := by
  intro dts
  induction dts with
  | nil =>
    intro h _
    rfl
  | cons p ps ih =>
    intro h hnp
    have hne : p.1 ≠ path := by
      intro hc
      exact hnp (by simp [akeys_cons, hc])
    have hps : path ∉ akeys ps := fun hc => hnp (by simp [akeys_cons, hc])
    rw [List.foldl_cons, ih _ hps]
    show alookup (aset _ p.1 _) path = _
    rw [alookup_aset_ne _ _ _ _ (fun hc => hne hc.symm)]
    rfl

/-! Characterisations of `candidateStep` and the candidate fold. -/

theorem candidateStep_pending_lookup (path : String) (h : Graph) (c K : String) :
    alookup (Graph.candidateStep path h c).PendingImports K =
      alookup h.PendingImports K ∨
    alookup (Graph.candidateStep path h c).PendingImports K = none := by
  unfold Graph.candidateStep
  cases hp : alookup h.PendingImports c with
  | none => left; rfl
  | some dts =>
    by_cases hK : K = c
    · right
      subst hK
      show alookup (aerase _ K) K = none
      exact alookup_aerase _ _
    · left
      show alookup (aerase _ c) K = _
      rw [alookup_aerase_ne _ c K hK, linkFold_pending]

theorem candidateStep_pending_self (path : String) (h : Graph) (c : String) :
    alookup (Graph.candidateStep path h c).PendingImports c = none := by
  unfold Graph.candidateStep
  cases hp : alookup h.PendingImports c with
  | none => exact hp
  | some dts =>
    show alookup (aerase _ c) c = none
    exact alookup_aerase _ _

theorem candidateFold_none (path : String) :
    ∀ (l : List String) (h : Graph) (c : String),
      alookup h.PendingImports c = none →
      alookup ((l.foldl (Graph.candidateStep path) h)).PendingImports c = none := by
  intro l
  induction l with
  | nil =>
    intro h c hc
    exact hc
  | cons c0 cs ih =>
    intro h c hc
    rw [List.foldl_cons]
    apply ih
    rcases candidateStep_pending_lookup path h c0 c with heq | hnone
    · rw [heq]
      exact hc
    · exact hnone

theorem candidateFold_clears (path : String) :
    ∀ (l : List String) (h : Graph) (c : String), c ∈ l →
      alookup ((l.foldl (Graph.candidateStep path) h)).PendingImports c = none := by
  intro l
  induction l with
  | nil =>
    intro h c hc
    simp at hc
  | cons c0 cs ih =>
    intro h c hc
    rcases List.mem_cons.mp hc with rfl | hc'
    · rw [List.foldl_cons]
      exact candidateFold_none path cs _ c (candidateStep_pending_self path h c)
    · rw [List.foldl_cons]
      exact ih _ c hc'

theorem candidateFold_pending_lookup (path : String) :
    ∀ (l : List String) (h : Graph) (K : String),
      alookup ((l.foldl (Graph.candidateStep path) h)).PendingImports K =
        alookup h.PendingImports K ∨
      alookup ((l.foldl (Graph.candidateStep path) h)).PendingImports K = none := by
  intro l
  induction l with
  | nil =>
    intro h K
    left
    rfl
  | cons c0 cs ih =>
    intro h K
    rw [List.foldl_cons]
    rcases ih (Graph.candidateStep path h c0) K with heq | hnone
    · rcases candidateStep_pending_lookup path h c0 K with heq2 | hnone2
      · left
        rw [heq, heq2]
      · right
        rw [heq, hnone2]
    · right
      exact hnone

/-- When no pending dependent under `c` is `d`, resolving `c` leaves `d`'s
edge to `path` (in both directions) unchanged. -/

theorem candidateStep_preserves (path : String) (h : Graph) (c d : String)
    (hd : (alookup h.PendingImports c).bind (fun m => alookup m d) = none) :
    (Graph.candidateStep path h c).fwd d path = h.fwd d path ∧
    (Graph.candidateStep path h c).rev path d = h.rev path d := by
  unfold Graph.candidateStep
  cases hp : alookup h.PendingImports c with
  | none => exact ⟨rfl, rfl⟩
  | some dts =>
    rw [hp] at hd
    simp only [Option.some_bind] at hd
    have hlv : lastVal dts d = none :=
      lastVal_none (not_mem_akeys_of_alookup_none hd)
    constructor
    · rw [fwd_setPending, linkFold_fwd, hlv]
      simp
    · rw [rev_setPending, linkFold_rev, hlv]
      simp

/-- Resolving a candidate whose pending dependents do not include `path`
leaves `path`'s own forward map untouched. -/

theorem candidateStep_fwd_path (path : String) (h : Graph) (c : String)
    (hd : (alookup h.PendingImports c).bind (fun m => alookup m path) = none) :
    alookup (Graph.candidateStep path h c).Forward path =
      alookup h.Forward path := by
  unfold Graph.candidateStep
  cases hp : alookup h.PendingImports c with
  | none => rfl
  | some dts =>
    rw [hp] at hd
    simp only [Option.some_bind] at hd
    show alookup (dts.foldl _ h).Forward path = _
    exact linkFold_forward_path path dts h (not_mem_akeys_of_alookup_none hd)

theorem candidateFold_preserves (path d : String) :
    ∀ (l : List String) (h : Graph),
      (∀ c ∈ l, (alookup h.PendingImports c).bind (fun m => alookup m d) = none) →
      ((l.foldl (Graph.candidateStep path) h).fwd d path = h.fwd d path ∧
       (l.foldl (Graph.candidateStep path) h).rev path d = h.rev path d) := by
  intro l
  induction l with
  | nil =>
    intro h _
    exact ⟨rfl, rfl⟩
  | cons c cs ih =>
    intro h hcond
    have hstep := candidateStep_preserves path h c d
      (hcond c (List.mem_cons_self _ _))
    have hcond' : ∀ c' ∈ cs,
        (alookup (Graph.candidateStep path h c).PendingImports c').bind
          (fun m => alookup m d) = none := by
      intro c' hc'
      rcases candidateStep_pending_lookup path h c c' with heq | hnone
      · rw [heq]
        exact hcond c' (List.mem_cons_of_mem _ hc')
      · rw [hnone]
        rfl
    have hrest := ih (Graph.candidateStep path h c) hcond'
    rw [List.foldl_cons]
    exact ⟨hrest.1.trans hstep.1, hrest.2.trans hstep.2⟩

theorem candidateFold_fwd_path (path : String) :
    ∀ (l : List String) (h : Graph),
      (∀ c ∈ l, (alookup h.PendingImports c).bind (fun m => alookup m path) = none) →
      alookup ((l.foldl (Graph.candidateStep path) h)).Forward path =
        alookup h.Forward path := by
  intro l
  induction l with
  | nil =>
    intro h _
    rfl
  | cons c cs ih =>
    intro h hcond
    have hstep := candidateStep_fwd_path path h c (hcond c (List.mem_cons_self _ _))
    have hcond' : ∀ c' ∈ cs,
        (alookup (Graph.candidateStep path h c).PendingImports c').bind
          (fun m => alookup m path) = none := by
      intro c' hc'
      rcases candidateStep_pending_lookup path h c c' with heq | hnone
      · rw [heq]
        exact hcond c' (List.mem_cons_of_mem _ hc')
      · rw [hnone]
        rfl
    rw [List.foldl_cons]
    exact (ih (Graph.candidateStep path h c) hcond').trans hstep

/-! Characterisations of the clear, resolve and pending phases. -/

theorem clearPhase_pending (g : Graph) (path : String) :
    (g.clearPhase path).PendingImports = g.PendingImports := by
  unfold Graph.clearPhase
  cases alookup g.Forward path with
  | none => rfl
  | some oldDeps =>
    show (oldDeps.foldl _ g).PendingImports = _
    exact pending_foldl_remove path oldDeps g

theorem clearPhase_fwd (g : Graph) (path b : String) :
    (g.clearPhase path).fwd path b = none := by
  unfold Graph.clearPhase
  cases alookup g.Forward path with
  | none =>
    rw [fwd_resetPath]
    simp
  | some oldDeps =>
    rw [fwd_resetPath]
    simp

theorem clearPhase_forward_path (g : Graph) (path : String) :
    alookup (g.clearPhase path).Forward path = some [] := by
  unfold Graph.clearPhase
  cases alookup g.Forward path with
  | none => exact alookup_aset _ _ _
  | some oldDeps => exact alookup_aset _ _ _

theorem resolvedKind_acc (b : String) :
    ∀ (l : List ImportEntry) (acc : Option DependencyType),
      l.foldl (fun acc e => if e.Path = b then
        some (if e.Mocked then DepMocked else DepRegular) else acc) acc =
      match resolvedKind l b with
      | some k => some k
      | none => acc := by
  intro l
  induction l with
  | nil =>
    intro acc
    simp [resolvedKind]
  | cons e es ih =>
    intro acc
    rw [List.foldl_cons, ih]
    have hl : resolvedKind (e :: es) b =
        match resolvedKind es b with
        | some k => some k
        | none => if e.Path = b then
            some (if e.Mocked then DepMocked else DepRegular) else none := by
      show es.foldl _ (if e.Path = b then _ else none) = _
      rw [ih]
    rw [hl]
    cases resolvedKind es b with
    | some k => rfl
    | none =>
      by_cases he : e.Path = b
      · simp [he]
      · simp [he]

theorem resolveFold_fwd (path : String) :
    ∀ (l : List ImportEntry) (h : Graph) (b : String),
      ((l.foldl (Graph.resolveStep path) h).fwd path b) =
      match resolvedKind l b with
      | some k => some k
      | none => h.fwd path b := by
  intro l
  induction l with
  | nil =>
    intro h b
    simp [resolvedKind]
  | cons e es ih =>
    intro h b
    rw [List.foldl_cons, ih]
    have hbody : (Graph.resolveStep path h e).fwd path b =
        if b = e.Path then some (if e.Mocked then DepMocked else DepRegular)
        else h.fwd path b := by
      unfold Graph.resolveStep
      have hs : ((h.setForward path e.Path
            (if e.Mocked then DepMocked else DepRegular)).addReverseDependency
            e.Path path (if e.Mocked then DepMocked else DepRegular)).fwd path b
          = (h.setForward path e.Path
            (if e.Mocked then DepMocked else DepRegular)).fwd path b := rfl
      rw [hs, fwd_setForward]
      simp
    have hl : resolvedKind (e :: es) b =
        match resolvedKind es b with
        | some k => some k
        | none => if e.Path = b then
            some (if e.Mocked then DepMocked else DepRegular) else none := by
      show es.foldl _ (if e.Path = b then _ else none) = _
      rw [resolvedKind_acc]
    rw [hl, hbody]
    cases resolvedKind es b with
    | some k => rfl
    | none =>
      by_cases he : e.Path = b
      · subst he
        simp
      · have her : b ≠ e.Path := fun hc => he hc.symm
        simp [he, her]

theorem resolveFold_pending (path : String) :
    ∀ (l : List ImportEntry) (h : Graph),
      (l.foldl (Graph.resolveStep path) h).PendingImports = h.PendingImports := by
  intro l
  induction l with
  | nil =>
    intro h
    rfl
  | cons e es ih =>
    intro h
    rw [List.foldl_cons, ih]
    rfl

theorem pendingFold_forward (path : String) :
    ∀ (l : List ImportEntry) (h : Graph),
      (l.foldl (Graph.pendingStep path) h).Forward = h.Forward := by
  intro l
  induction l with
  | nil =>
    intro h
    rfl
  | cons u us ih =>
    intro h
    rw [List.foldl_cons, ih]
    rfl

theorem pendingFold_reverse (path : String) :
    ∀ (l : List ImportEntry) (h : Graph),
      (l.foldl (Graph.pendingStep path) h).Reverse = h.Reverse := by
  intro l
  induction l with
  | nil =>
    intro h
    rfl
  | cons u us ih =>
    intro h
    rw [List.foldl_cons, ih]
    rfl

theorem pendingFold_fwd (path : String) (l : List ImportEntry) (h : Graph)
    (x y : String) : (l.foldl (Graph.pendingStep path) h).fwd x y = h.fwd x y := by
  simp only [Graph.fwd, pendingFold_forward]

theorem pendingStep_pend2 (path : String) (h : Graph) (u : ImportEntry)
    (K x : String) (hx : x ≠ path) :
    (alookup (Graph.pendingStep path h u).PendingImports K).bind
      (fun m => alookup m x) =
    (alookup h.PendingImports K).bind (fun m => alookup m x) := by
  unfold Graph.pendingStep Graph.addPendingImport
  by_cases hK : K = u.Path
  · subst hK
    show (alookup (aset _ u.Path _) u.Path).bind _ = _
    rw [alookup_aset]
    simp only [Option.some_bind]
    rw [alookup_aset_ne _ _ _ _ hx]
    cases hq : alookup h.PendingImports u.Path with
    | none => rfl
    | some m => rfl
  · show (alookup (aset _ u.Path _) K).bind _ = _
    rw [alookup_aset_ne _ _ _ _ hK]

theorem pendingFold_pend2 (path : String) :
    ∀ (l : List ImportEntry) (h : Graph) (K x : String), x ≠ path →
      (alookup ((l.foldl (Graph.pendingStep path) h)).PendingImports K).bind
        (fun m => alookup m x) =
      (alookup h.PendingImports K).bind (fun m => alookup m x) := by
  intro l
  induction l with
  | nil =>
    intro h K x _
    rfl
  | cons u us ih =>
    intro h K x hx
    rw [List.foldl_cons, ih _ K x hx, pendingStep_pend2 path h u K x hx]

theorem pendingStep_lookup_ne (path : String) (h : Graph) (u : ImportEntry)
    (K : String) (hne : u.Path ≠ K) :
    alookup (Graph.pendingStep path h u).PendingImports K =
      alookup h.PendingImports K := by
  unfold Graph.pendingStep Graph.addPendingImport
  show alookup (aset _ u.Path _) K = _
  rw [alookup_aset_ne _ _ _ _ (fun hc => hne hc.symm)]

theorem pendingFold_lookup (path : String) :
    ∀ (l : List ImportEntry) (h : Graph) (K : String),
      (∀ u ∈ l, u.Path ≠ K) →
      alookup ((l.foldl (Graph.pendingStep path) h)).PendingImports K =
        alookup h.PendingImports K := by
  intro l
  induction l with
  | nil =>
    intro h K _
    rfl
  | cons u us ih =>
    intro h K hcond
    rw [List.foldl_cons, ih _ K (fun u' hu' => hcond u' (List.mem_cons_of_mem _ hu')),
      pendingStep_lookup_ne path h u K (hcond u (List.mem_cons_self _ _))]

/-! Key-uniqueness helpers. -/

theorem akeys_aerase_nodup {l : List (String × β)} (h : (akeys l).Nodup)
    (k : String) : (akeys (aerase l k)).Nodup := by
  have hsub : List.Sublist (aerase l k) l := List.filter_sublist l
  exact h.sublist (hsub.map _)

theorem not_mem_akeys_aerase (l : List (String × β)) (k : String) :
    k ∉ akeys (aerase l k) := by
  intro hc
  simp only [akeys, List.mem_map] at hc
  obtain ⟨p, hp, hpk⟩ := hc
  simp only [aerase, List.mem_filter] at hp
  have := hp.2
  simp only [decide_eq_true_eq] at this
  exact this hpk

theorem akeys_aset_nodup {l : List (String × β)} (h : (akeys l).Nodup)
    (k : String) (v : β) : (akeys (aset l k v)).Nodup := by
  show (akeys ((k, v) :: aerase l k)).Nodup
  rw [akeys_cons]
  exact List.nodup_cons.mpr ⟨not_mem_akeys_aerase l k, akeys_aerase_nodup h k⟩

theorem resolveFold_forward_nodup (path : String) :
    ∀ (l : List ImportEntry) (h : Graph) (L : DepMap),
      alookup h.Forward path = some L → (akeys L).Nodup →
      ∃ L2, alookup ((l.foldl (Graph.resolveStep path) h)).Forward path
          = some L2 ∧ (akeys L2).Nodup := by
  intro l
  induction l with
  | nil =>
    intro h L hL hnd
    exact ⟨L, hL, hnd⟩
  | cons e es ih =>
    intro h L hL hnd
    rw [List.foldl_cons]
    apply ih (Graph.resolveStep path h e)
      (aset L e.Path (if e.Mocked then DepMocked else DepRegular))
    · show alookup (aset h.Forward path _) path = _
      rw [alookup_aset, hL]
      rfl
    · exact akeys_aset_nodup hnd _ _

theorem candidateStep_fwd_query (path b : String) (h : Graph) (c : String)
    (hd : (alookup h.PendingImports c).bind (fun m => alookup m path) = none) :
    (Graph.candidateStep path h c).fwd path b = h.fwd path b := by
  unfold Graph.candidateStep
  cases hp : alookup h.PendingImports c with
  | none => rfl
  | some dts =>
    rw [hp] at hd
    simp only [Option.some_bind] at hd
    have hlv : lastVal dts path = none :=
      lastVal_none (not_mem_akeys_of_alookup_none hd)
    rw [fwd_setPending, linkFold_fwd]
    by_cases hb : b = path
    · simp [hb, hlv]
    · simp [hb]

theorem candidateFold_fwd_query (path b : String) :
    ∀ (l : List String) (h : Graph),
      (∀ c ∈ l, (alookup h.PendingImports c).bind (fun m => alookup m path) = none) →
      (l.foldl (Graph.candidateStep path) h).fwd path b = h.fwd path b := by
  intro l
  induction l with
  | nil =>
    intro h _
    rfl
  | cons c cs ih =>
    intro h hcond
    have hstep := candidateStep_fwd_query path b h c (hcond c (List.mem_cons_self _ _))
    have hcond' : ∀ c' ∈ cs,
        (alookup (Graph.candidateStep path h c).PendingImports c').bind
          (fun m => alookup m path) = none := by
      intro c' hc'
      rcases candidateStep_pending_lookup path h c c' with heq | hnone
      · rw [heq]
        exact hcond c' (List.mem_cons_of_mem _ hc')
      · rw [hnone]
        rfl
    rw [List.foldl_cons]
    exact (ih (Graph.candidateStep path h c) hcond').trans hstep

theorem PendingSelf_empty : PendingSelf Graph.empty := by
  intro x K _
  rfl

theorem Update_pendingSelf (g : Graph) (path : String)
    (parse : Option ImportResult) (hps : PendingSelf g) :
    PendingSelf (g.Update path parse) := by
  unfold Graph.Update
  by_cases hsrc : isSourceFile (basename path)
  · simp only [hsrc, not_true_eq_false, if_false]
    cases parse with
    | none => exact hps
    | some result =>
      intro x K hK
      by_cases hKp : K ∈ candidates path
      · rw [candidateFold_clears path (candidates path) _ K hKp]
        rfl
      · have hxp : x ≠ path := by
          intro hc
          subst hc
          exact hKp hK
        rcases candidateFold_pending_lookup path (candidates path)
            (result.Unresolved.foldl (Graph.pendingStep path)
              (result.Resolved.foldl (Graph.resolveStep path)
                (g.clearPhase path))) K with heq | hnone
        · rw [heq, pendingFold_pend2 path result.Unresolved _ K x hxp,
            resolveFold_pending, clearPhase_pending]
          exact hps x K hK
        · rw [hnone]
          rfl
  · simp only [hsrc, not_false_eq_true, if_true]
    exact hps

theorem foldUpdates_pendingSelf (calls : List (String × Option ImportResult)) :
    PendingSelf (foldUpdates calls) :=
  foldUpdates_preserve PendingSelf Update_pendingSelf PendingSelf_empty calls

theorem NoEmptyRev_empty : NoEmptyRev Graph.empty := by
  intro b
  simp [Graph.empty, alookup]

theorem NER_addReverseDependency (g : Graph) (d t : String) (k : DependencyType)
    (h : NoEmptyRev g) : NoEmptyRev (g.addReverseDependency d t k) := by
  intro b
  show alookup (aset g.Reverse d _) b ≠ _
  by_cases hb : b = d
  · subst hb
    rw [alookup_aset]
    intro hc
    injection hc with hc
    exact absurd hc (by simp [aset])
  · rw [alookup_aset_ne _ _ _ _ hb]
    exact h b

theorem NER_removeReverseDependency (g : Graph) (d t : String)
    (h : NoEmptyRev g) : NoEmptyRev (g.removeReverseDependency d t) := by
  intro b
  unfold Graph.removeReverseDependency
  cases hl : alookup g.Reverse d with
  | none => exact h b
  | some deps =>
    by_cases hempty : (aerase deps t).isEmpty
    · simp only [hempty, if_true]
      show alookup (aerase g.Reverse d) b ≠ _
      by_cases hb : b = d
      · subst hb
        rw [alookup_aerase]
        simp
      · rw [alookup_aerase_ne _ _ _ hb]
        exact h b
    · have hf : (aerase deps t).isEmpty = false := by
        simpa using hempty
      simp only [hf, Bool.false_eq_true, if_false]
      show alookup (aset g.Reverse d _) b ≠ _
      by_cases hb : b = d
      · subst hb
        rw [alookup_aset]
        intro hc
        injection hc with hc
        rw [hc] at hf
        simp at hf
      · rw [alookup_aset_ne _ _ _ _ hb]
        exact h b

theorem NER_setForward (g : Graph) (a b : String) (k : DependencyType)
    (h : NoEmptyRev g) : NoEmptyRev (g.setForward a b k) := h

theorem NER_clearPhase (g : Graph) (path : String) (h : NoEmptyRev g) :
    NoEmptyRev (g.clearPhase path) := by
  unfold Graph.clearPhase
  cases alookup g.Forward path with
  | none => exact h
  | some oldDeps =>
    show NoEmptyRev { (oldDeps.foldl _ g) with Forward := _ }
    have : NoEmptyRev (oldDeps.foldl (fun (h : Graph) (p : String × DependencyType) =>
        h.removeReverseDependency p.1 path) g) :=
      foldl_preserve NoEmptyRev _
        (fun g2 p h2 => NER_removeReverseDependency g2 p.1 path h2) oldDeps g h
    exact this

theorem NER_resolveStep (path : String) (h : Graph) (imp : ImportEntry)
    (hn : NoEmptyRev h) : NoEmptyRev (Graph.resolveStep path h imp) :=
  NER_addReverseDependency _ imp.Path path _ (NER_setForward h path imp.Path _ hn)

theorem NER_pendingStep (path : String) (h : Graph) (u : ImportEntry)
    (hn : NoEmptyRev h) : NoEmptyRev (Graph.pendingStep path h u) := hn

theorem NER_candidateStep (path : String) (h : Graph) (c : String)
    (hn : NoEmptyRev h) : NoEmptyRev (Graph.candidateStep path h c) := by
  unfold Graph.candidateStep
  cases alookup h.PendingImports c with
  | none => exact hn
  | some dts =>
    show NoEmptyRev { (dts.foldl _ h) with PendingImports := _ }
    have : NoEmptyRev (dts.foldl (fun (h2 : Graph) (p : String × DependencyType) =>
        (h2.addReverseDependency path p.1 p.2).setForward p.1 path p.2) h) :=
      foldl_preserve NoEmptyRev _
        (fun g2 p h2 => NER_setForward _ p.1 path p.2
          (NER_addReverseDependency g2 path p.1 p.2 h2)) dts h hn
    exact this

theorem Update_noEmptyRev (g : Graph) (path : String)
    (parse : Option ImportResult) (hn : NoEmptyRev g) :
    NoEmptyRev (g.Update path parse) := by
  unfold Graph.Update
  by_cases hsrc : isSourceFile (basename path)
  · simp only [hsrc, not_true_eq_false, if_false]
    cases parse with
    | none => exact hn
    | some result =>
      exact foldl_preserve NoEmptyRev _ (NER_candidateStep path) (candidates path) _
        (foldl_preserve NoEmptyRev _ (NER_pendingStep path) result.Unresolved _
          (foldl_preserve NoEmptyRev _ (NER_resolveStep path) result.Resolved _
            (NER_clearPhase g path hn)))
  · simp only [hsrc, not_false_eq_true, if_true]
    exact hn

theorem foldUpdates_noEmptyRev (calls : List (String × Option ImportResult)) :
    NoEmptyRev (foldUpdates calls) :=
  foldUpdates_preserve NoEmptyRev Update_noEmptyRev NoEmptyRev_empty calls

/-- After `Update`, the updated file's forward edges are exactly those of
its parse result (last write wins), provided the parse result's unresolved
keys are not candidate keys of the file itself — which resolution
guarantees, since the parsed file exists on disk. -/

theorem Update_fwd_char (g : Graph) (a : String) (r : ImportResult)
    (hsrc : isSourceFile (basename a) = true)
    (hu : ∀ u ∈ r.Unresolved, u.Path ∉ candidates a)
    (hps : PendingSelf g) (b : String) :
    (g.Update a (some r)).fwd a b = resolvedKind r.Resolved b := by
  unfold Graph.Update
  simp only [hsrc, not_true_eq_false, if_false]
  have hcond : ∀ c ∈ candidates a,
      (alookup ((r.Unresolved.foldl (Graph.pendingStep a)
        (r.Resolved.foldl (Graph.resolveStep a)
          (g.clearPhase a)))).PendingImports c).bind
        (fun m => alookup m a) = none := by
    intro c hc
    have hne : ∀ u ∈ r.Unresolved, u.Path ≠ c := by
      intro u hmem hequ
      exact hu u hmem (hequ ▸ hc)
    rw [pendingFold_lookup a r.Unresolved _ c hne, resolveFold_pending,
      clearPhase_pending]
    exact hps a c hc
  rw [candidateFold_fwd_query a b (candidates a) _ hcond, pendingFold_fwd,
    resolveFold_fwd, clearPhase_fwd]
  cases resolvedKind r.Resolved b with
  | some k => rfl
  | none => rfl

/-- After `Update`, the updated file's forward map exists and has no
duplicated edge keys. -/

theorem Update_forward_nodup (g : Graph) (a : String) (r : ImportResult)
    (hsrc : isSourceFile (basename a) = true)
    (hu : ∀ u ∈ r.Unresolved, u.Path ∉ candidates a)
    (hps : PendingSelf g) :
    ∃ L, alookup (g.Update a (some r)).Forward a = some L ∧
      (akeys L).Nodup := by
  unfold Graph.Update
  simp only [hsrc, not_true_eq_false, if_false]
  have hcond : ∀ c ∈ candidates a,
      (alookup ((r.Unresolved.foldl (Graph.pendingStep a)
        (r.Resolved.foldl (Graph.resolveStep a)
          (g.clearPhase a)))).PendingImports c).bind
        (fun m => alookup m a) = none := by
    intro c hc
    have hne : ∀ u ∈ r.Unresolved, u.Path ≠ c := by
      intro u hmem hequ
      exact hu u hmem (hequ ▸ hc)
    rw [pendingFold_lookup a r.Unresolved _ c hne, resolveFold_pending,
      clearPhase_pending]
    exact hps a c hc
  obtain ⟨L2, hL2, hnd2⟩ := resolveFold_forward_nodup a r.Resolved
    (g.clearPhase a) [] (clearPhase_forward_path g a) (by simp [akeys])
  refine ⟨L2, ?_, hnd2⟩
  rw [candidateFold_fwd_path a (candidates a) _ hcond, pendingFold_forward]
  exact hL2

theorem candidateStep_pending_ne (path : String) (h : Graph) (c K : String)
    (hne : K ≠ c) :
    alookup (Graph.candidateStep path h c).PendingImports K =
      alookup h.PendingImports K := by
  unfold Graph.candidateStep
  cases hp : alookup h.PendingImports c with
  | none => rfl
  | some dts =>
    show alookup (aerase _ c) K = _
    rw [alookup_aerase_ne _ c K hne, linkFold_pending]

theorem candidateStep_installs (path d : String) (k : DependencyType)
    (h : Graph) (K : String) (entries : DepMap)
    (hlook : alookup h.PendingImports K = some entries)
    (hd : alookup entries d = some k) (hnd : (akeys entries).Nodup) :
    (Graph.candidateStep path h K).fwd d path = some k ∧
    (Graph.candidateStep path h K).rev path d = some k := by
  unfold Graph.candidateStep
  cases hp : alookup h.PendingImports K with
  | none =>
    rw [hlook] at hp
    cases hp
  | some dts =>
    rw [hlook] at hp
    injection hp with hp
    subst hp
    have hlv : lastVal entries d = some k := by
      rw [lastVal_eq_alookup hnd]
      exact hd
    constructor
    · rw [fwd_setPending, linkFold_fwd]
      simp [hlv]
    · rw [rev_setPending, linkFold_rev]
      simp [hlv]

theorem candidateFold_installs (path d : String) (k : DependencyType)
    (K : String) :
    ∀ (l : List String) (h : Graph) (entries : DepMap),
      K ∈ l →
      alookup h.PendingImports K = some entries →
      alookup entries d = some k →
      (akeys entries).Nodup →
      (∀ c ∈ l, c ≠ K →
        (alookup h.PendingImports c).bind (fun m => alookup m d) = none) →
      (l.foldl (Graph.candidateStep path) h).fwd d path = some k ∧
      (l.foldl (Graph.candidateStep path) h).rev path d = some k := by
  intro l
  induction l with
  | nil =>
    intro h entries hKl
    simp at hKl
  | cons c cs ih =>
    intro h entries hKl hlook hd hnd hcond
    by_cases hcK : c = K
    · subst hcK
      have hstep := candidateStep_installs path d k h c entries hlook hd hnd
      have hcond2 : ∀ c' ∈ cs,
          (alookup (Graph.candidateStep path h c).PendingImports c').bind
            (fun m => alookup m d) = none := by
        intro c' hc'
        by_cases hc'K : c' = c
        · subst hc'K
          rw [candidateStep_pending_self]
          rfl
        · rcases candidateStep_pending_lookup path h c c' with heq | hnone
          · rw [heq]
            exact hcond c' (List.mem_cons_of_mem _ hc') hc'K
          · rw [hnone]
            rfl
      have hrest := candidateFold_preserves path d cs (Graph.candidateStep path h c)
        hcond2
      rw [List.foldl_cons]
      exact ⟨hrest.1.trans hstep.1, hrest.2.trans hstep.2⟩
    · have hKcs : K ∈ cs := by
        rcases List.mem_cons.mp hKl with rfl | hm
        · exact absurd rfl hcK
        · exact hm
      have hlook2 : alookup (Graph.candidateStep path h c).PendingImports K =
          some entries := by
        rw [candidateStep_pending_ne path h c K (fun hc => hcK hc.symm)]
        exact hlook
      have hcond2 : ∀ c' ∈ cs, c' ≠ K →
          (alookup (Graph.candidateStep path h c).PendingImports c').bind
            (fun m => alookup m d) = none := by
        intro c' hc' hc'K
        by_cases hc'c : c' = c
        · subst hc'c
          rw [candidateStep_pending_self]
          rfl
        · rcases candidateStep_pending_lookup path h c c' with heq | hnone
          · rw [heq]
            exact hcond c' (List.mem_cons_of_mem _ hc') hc'K
          · rw [hnone]
            rfl
      rw [List.foldl_cons]
      exact ih (Graph.candidateStep path h c) entries hKcs hlook2 hd hnd hcond2

theorem PendingNodup_empty : PendingNodup Graph.empty := by
  intro K m h
  simp [Graph.empty, alookup] at h

theorem PendingNodup_pendingStep (path : String) (h : Graph) (u : ImportEntry)
    (hp : PendingNodup h) : PendingNodup (Graph.pendingStep path h u) := by
  intro K m
  unfold Graph.pendingStep Graph.addPendingImport
  by_cases hK : K = u.Path
  · subst hK
    show alookup (aset _ u.Path _) u.Path = some m → _
    rw [alookup_aset]
    intro hm
    injection hm with hm
    subst hm
    cases hq : alookup h.PendingImports u.Path with
    | none => exact akeys_aset_nodup (by simp [akeys]) _ _
    | some inner => exact akeys_aset_nodup (hp u.Path inner hq) _ _
  · show alookup (aset _ u.Path _) K = some m → _
    rw [alookup_aset_ne _ u.Path K _ hK]
    exact hp K m

theorem PendingNodup_candidateStep (path : String) (h : Graph) (c : String)
    (hp : PendingNodup h) : PendingNodup (Graph.candidateStep path h c) := by
  intro K m
  unfold Graph.candidateStep
  cases hq : alookup h.PendingImports c with
  | none => exact hp K m
  | some dts =>
    show alookup (aerase _ c) K = some m → _
    by_cases hK : K = c
    · subst hK
      rw [alookup_aerase]
      intro hm
      cases hm
    · rw [alookup_aerase_ne _ c K hK, linkFold_pending]
      exact hp K m

theorem PendingNodup_clearPhase (g : Graph) (path : String)
    (hp : PendingNodup g) : PendingNodup (g.clearPhase path) := by
  intro K m
  rw [clearPhase_pending]
  exact hp K m

theorem PendingNodup_resolveStep (path : String) (h : Graph) (imp : ImportEntry)
    (hp : PendingNodup h) : PendingNodup (Graph.resolveStep path h imp) :=
  hp

theorem Update_pendingNodup (g : Graph) (path : String)
    (parse : Option ImportResult) (hp : PendingNodup g) :
    PendingNodup (g.Update path parse) := by
  unfold Graph.Update
  by_cases hsrc : isSourceFile (basename path)
  · simp only [hsrc, not_true_eq_false, if_false]
    cases parse with
    | none => exact hp
    | some result =>
      exact foldl_preserve PendingNodup _ (PendingNodup_candidateStep path)
        (candidates path) _
        (foldl_preserve PendingNodup _ (PendingNodup_pendingStep path)
          result.Unresolved _
          (foldl_preserve PendingNodup _ (PendingNodup_resolveStep path)
            result.Resolved _ (PendingNodup_clearPhase g path hp)))
  · simp only [hsrc, not_false_eq_true, if_true]
    exact hp

theorem foldUpdates_pendingNodup (calls : List (String × Option ImportResult)) :
    PendingNodup (foldUpdates calls) :=
  foldUpdates_preserve PendingNodup Update_pendingNodup PendingNodup_empty calls

/-- C3: after any sequence of `Graph.Update` calls starting from a freshly
created graph, for all paths `a` and `b` and every dependency kind `k`,
`Forward[a][b] = k` holds exactly when `Reverse[b][a] = k` holds. -/

theorem update_sequence_mirror_invariant
    (calls : List (String × Option ImportResult)) (a b : String)
    (k : DependencyType) :
    (foldUpdates calls).fwd a b = some k ↔
      (foldUpdates calls).rev b a = some k :=
  foldUpdates_mirror calls a b k

/-- C6: for every graph state and path `p`, `GetDependents p` is exactly
the set of nodes reachable from `p` by one or more `Reverse` edges, it
excludes `p` itself and lists every node at most once; in the four-file
scenario the dependents of `utils.ts` are exactly `component.ts`,
`utils.test.ts` and `component.test.ts`. -/

theorem getDependents_closure_and_scenario :
    (∀ (g : Graph) (p : String),
      (∀ y, y ∈ g.GetDependents p ↔
        Relation.TransGen (revStep g) p y ∧ y ≠ p) ∧
      (g.GetDependents p).Nodup) ∧
    (∀ y, y ∈ (foldUpdates scenario1Calls).GetDependents "/r/utils.ts" ↔
      (y = "/r/component.ts" ∨ y = "/r/utils.test.ts" ∨
        y = "/r/component.test.ts")) := by
  refine ⟨fun g p => GetDependents_spec g p, ?_⟩
  have hperm : ((foldUpdates scenario1Calls).GetDependents "/r/utils.ts").Perm
      ["/r/component.ts", "/r/utils.test.ts", "/r/component.test.ts"] := by
    decide
  intro y
  rw [hperm.mem_iff]
  simp

/-- C4: `Update a` fully replaces `a`'s outgoing edges with exactly those
of its current parse result — the forward map for `a` holds exactly the
resolved entries with no duplicated edge, every target that `a` no
longer imports loses `a` in its reverse map, and emptied reverse maps are
collapsed (no empty inner map is ever stored). -/

theorem update_replaces_outgoing_edges
    (calls : List (String × Option ImportResult)) (a : String)
    (r : ImportResult)
    (hsrc : isSourceFile (basename a) = true)
    (hu : ∀ u ∈ r.Unresolved, u.Path ∉ candidates a) :
    (∀ b, ((foldUpdates calls).Update a (some r)).fwd a b =
      resolvedKind r.Resolved b) ∧
    (∃ L, alookup ((foldUpdates calls).Update a (some r)).Forward a = some L ∧
      (akeys L).Nodup) ∧
    (∀ b, resolvedKind r.Resolved b = none →
      ((foldUpdates calls).Update a (some r)).rev b a = none) ∧
    (∀ b, alookup ((foldUpdates calls).Update a (some r)).Reverse b ≠
      some ([] : DepMap)) := by
  have hps := foldUpdates_pendingSelf calls
  have hm := foldUpdates_mirror calls
  refine ⟨fun b => Update_fwd_char _ a r hsrc hu hps b,
    Update_forward_nodup _ a r hsrc hu hps, ?_, ?_⟩
  · intro b hnone
    have hm2 : Mirror ((foldUpdates calls).Update a (some r)) :=
      Update_mirror _ a (some r) hm
    cases hrev : ((foldUpdates calls).Update a (some r)).rev b a with
    | none => rfl
    | some k =>
      have hfwd := (hm2 a b k).mpr hrev
      rw [Update_fwd_char _ a r hsrc hu hps b, hnone] at hfwd
      cases hfwd
  · intro b
    exact Update_noEmptyRev _ a (some r) (foldUpdates_noEmptyRev calls) b

theorem update_replaces_outgoing_edges_witness :
    (isSourceFile (basename "/r/b.ts") = true) ∧
    (((foldUpdates scenario3Calls).Update "/r/b.ts"
        (some ⟨[], []⟩)).fwd "/r/b.ts" "/r/a.ts" = none) ∧
    (((foldUpdates scenario3Calls).Update "/r/b.ts"
        (some ⟨[], []⟩)).rev "/r/a.ts" "/r/b.ts" = none) ∧
    (((foldUpdates scenario3Calls).Update "/r/b.ts"
        (some ⟨[], []⟩)).GetDependents "/r/a.ts" = []) := by
  have h := update_replaces_outgoing_edges scenario3Calls "/r/b.ts"
    ⟨[], []⟩ (by decide) (by simp)
  refine ⟨by decide, ?_, ?_, by decide⟩
  · rw [h.1 "/r/a.ts"]
    rfl
  · exact h.2.2.1 "/r/a.ts" rfl

/-- C5: `Update x` deletes every pending key that `x` satisfies (the path
itself, the path without extension, or the parent directory for index
files) and installs forward and reverse edges of the recorded kind from
each pending dependent to `x`. -/

theorem update_resolves_pending_imports
    (calls : List (String × Option ImportResult)) (x : String)
    (r : ImportResult)
    (hsrc : isSourceFile (basename x) = true)
    (hu : ∀ u ∈ r.Unresolved, u.Path ∉ candidates x)
    (K : String) (hK : K ∈ candidates x) (entries : DepMap)
    (hpend : alookup (foldUpdates calls).PendingImports K = some entries) :
    alookup ((foldUpdates calls).Update x (some r)).PendingImports K = none ∧
    (∀ d k, alookup entries d = some k →
      (∀ K2 ∈ candidates x, K2 ≠ K →
        (alookup (foldUpdates calls).PendingImports K2).bind
          (fun m => alookup m d) = none) →
      ((foldUpdates calls).Update x (some r)).fwd d x = some k ∧
      ((foldUpdates calls).Update x (some r)).rev x d = some k) := by
  constructor
  · unfold Graph.Update
    simp only [hsrc, not_true_eq_false, if_false]
    exact candidateFold_clears x (candidates x) _ K hK
  · intro d k hd hothers
    unfold Graph.Update
    simp only [hsrc, not_true_eq_false, if_false]
    have hne : ∀ u ∈ r.Unresolved, u.Path ≠ K :=
      fun u hu2 hequ => hu u hu2 (hequ ▸ hK)
    have hlook4 : alookup ((r.Unresolved.foldl (Graph.pendingStep x)
        (r.Resolved.foldl (Graph.resolveStep x)
          ((foldUpdates calls).clearPhase x)))).PendingImports K =
        some entries := by
      rw [pendingFold_lookup x r.Unresolved _ K hne, resolveFold_pending,
        clearPhase_pending]
      exact hpend
    have hnd : (akeys entries).Nodup :=
      foldUpdates_pendingNodup calls K entries hpend
    have hcond : ∀ c ∈ candidates x, c ≠ K →
        (alookup ((r.Unresolved.foldl (Graph.pendingStep x)
          (r.Resolved.foldl (Graph.resolveStep x)
            ((foldUpdates calls).clearPhase x)))).PendingImports c).bind
          (fun m => alookup m d) = none := by
      intro c hc hcK
      have hnec : ∀ u ∈ r.Unresolved, u.Path ≠ c :=
        fun u hu2 hequ => hu u hu2 (hequ ▸ hc)
      rw [pendingFold_lookup x r.Unresolved _ c hnec, resolveFold_pending,
        clearPhase_pending]
      exact hothers c hc hcK
    exact candidateFold_installs x d k K (candidates x) _ entries hK hlook4
      hd hnd hcond

theorem update_resolves_pending_imports_witness :
    (isSourceFile (basename "/r/utils.ts") = true) ∧
    ("/r/utils" ∈ candidates "/r/utils.ts") ∧
    (alookup (foldUpdates scenario2Calls).PendingImports "/r/utils" =
      some [("/r/utils.test.ts", DepRegular)]) ∧
    (alookup ((foldUpdates scenario2Calls).Update "/r/utils.ts"
        (some ⟨[], []⟩)).PendingImports "/r/utils" = none) ∧
    (((foldUpdates scenario2Calls).Update "/r/utils.ts"
        (some ⟨[], []⟩)).fwd "/r/utils.test.ts" "/r/utils.ts" =
      some DepRegular) ∧
    (((foldUpdates scenario2Calls).Update "/r/utils.ts"
        (some ⟨[], []⟩)).rev "/r/utils.ts" "/r/utils.test.ts" =
      some DepRegular) ∧
    (((foldUpdates scenario2Calls).Update "/r/utils.ts"
        (some ⟨[], []⟩)).GetDependents "/r/utils.ts" =
      ["/r/utils.test.ts"]) := by
  have h := update_resolves_pending_imports scenario2Calls "/r/utils.ts"
    ⟨[], []⟩ (by decide) (by simp) "/r/utils" (by decide)
    [("/r/utils.test.ts", DepRegular)] (by decide)
  have h2 := h.2 "/r/utils.test.ts" DepRegular (by decide) (by decide)
  exact ⟨by decide, by decide, by decide, h.1, h2.1, h2.2, by decide⟩

theorem leaf_dir_iff (nm p : String) (cs : List NodeT) (q : String) :
    Leaf (.node nm p true cs) q ↔ ∃ c ∈ cs, Leaf c q := by
  constructor
  · intro h
    cases h with
    | dir _ _ _ c _ hc hl => exact ⟨c, hc, hl⟩
  · rintro ⟨c, hc, hl⟩
    exact Leaf.dir nm p cs c q hc hl

theorem leaf_file_iff (nm p : String) (cs : List NodeT) (q : String) :
    Leaf (.node nm p false cs) q ↔ q = p := by
  constructor
  · intro h
    cases h
    rfl
  · intro h
    rw [h]
    exact Leaf.file nm p cs

theorem exists_leaf_cons (d : NodeT) (ds : List NodeT) (q : String) :
    (∃ c ∈ d :: ds, Leaf c q) ↔ Leaf d q ∨ ∃ c ∈ ds, Leaf c q := by
  constructor
  · rintro ⟨c, hc, hl⟩
    rcases List.mem_cons.mp hc with h1 | h1
    · subst h1
      exact Or.inl hl
    · exact Or.inr ⟨c, h1, hl⟩
  · rintro (hl | ⟨c, hc, hl⟩)
    · exact ⟨d, List.mem_cons_self d ds, hl⟩
    · exact ⟨c, List.mem_cons.mpr (Or.inr hc), hl⟩

theorem leaf_insertChild (part path : String) (go : NodeT → NodeT)
    (fresh : NodeT) (cs : List NodeT) (q : String)
    (hgo : ∀ c, c.isDir = true → (Leaf (go c) q ↔ Leaf c q ∨ q = path))
    (hfresh : Leaf (go fresh) q ↔ q = path) :
    (∃ c ∈ insertChild part go fresh cs, Leaf c q) ↔
      (∃ c ∈ cs, Leaf c q) ∨ q = path := by
  induction cs with
  | nil =>
    simp only [insertChild]
    rw [exists_leaf_cons, hfresh]
    simp
  | cons c rest ih =>
    simp only [insertChild]
    by_cases hcond : (c.name = part && c.isDir) = true
    · rw [if_pos hcond]
      have hdir : c.isDir = true := by
        rcases Bool.and_eq_true_iff.mp hcond with ⟨-, h2⟩
        exact h2
      rw [exists_leaf_cons, exists_leaf_cons, hgo c hdir]
      exact or_right_comm
    · rw [if_neg hcond]
      rw [exists_leaf_cons, exists_leaf_cons, ih]
      exact or_assoc.symm

theorem addParts_isDir (t : NodeT) (path : String) (parts : List String) :
    (addParts t path parts).isDir = t.isDir := by
  cases t with
  | node nm p d cs =>
    cases parts with
    | nil => rfl
    | cons part rest =>
      cases rest with
      | nil => rfl
      | cons r rs => rfl

theorem leaf_addParts (parts : List String) (t : NodeT) (path q : String)
    (hd : t.isDir = true) (hne : parts ≠ []) :
    Leaf (addParts t path parts) q ↔ Leaf t q ∨ q = path := by
  induction parts generalizing t with
  | nil => exact absurd rfl hne
  | cons part rest ih =>
    cases t with
    | node nm p d cs =>
      simp only [NodeT.isDir] at hd
      subst hd
      cases rest with
      | nil =>
        show Leaf (.node nm p true (cs ++ [.node part path false []])) q ↔ _
        rw [leaf_dir_iff, leaf_dir_iff]
        constructor
        · rintro ⟨c, hc, hl⟩
          rcases List.mem_append.mp hc with h1 | h1
          · exact Or.inl ⟨c, h1, hl⟩
          · simp only [List.mem_singleton] at h1
            subst h1
            exact Or.inr ((leaf_file_iff _ _ _ _).mp hl)
        · rintro (⟨c, hc, hl⟩ | hq)
          · exact ⟨c, List.mem_append.mpr (Or.inl hc), hl⟩
          · exact ⟨.node part path false [], by simp,
              (leaf_file_iff _ _ _ _).mpr hq⟩
      | cons r rs =>
        show Leaf (.node nm p true (insertChild part
          (fun c => addParts c path (r :: rs))
          (.node part (p ++ "/" ++ part) true []) cs)) q ↔ _
        rw [leaf_dir_iff, leaf_dir_iff]
        refine leaf_insertChild part path _ _ cs q ?_ ?_
        · intro c hcd
          exact ih c hcd (by simp)
        · rw [ih (.node part (p ++ "/" ++ part) true []) rfl (by simp),
            leaf_dir_iff]
          simp

theorem strData_append (s t : String) : (s ++ t).data = s.data ++ t.data := by
  cases s
  cases t
  rfl

theorem slash_data : "/".data = ['/'] := rfl

theorem data_append_slash (s : String) : (s ++ "/").data = s.data ++ ['/'] := by
  rw [strData_append, slash_data]

theorem splitOnChar_ne_nil (c : Char) (l : List Char) : splitOnChar c l ≠ [] := by
  cases l with
  | nil => simp [splitOnChar]
  | cons x xs =>
    simp only [splitOnChar]
    split
    · simp
    · split <;> simp

theorem isPrefixChars_iff_append (r s : List Char) :
    isPrefixChars r s = true ↔ ∃ t, s = r ++ t := by
  induction r generalizing s with
  | nil => simp [isPrefixChars]
  | cons a rs ih =>
    cases s with
    | nil => simp [isPrefixChars]
    | cons b t =>
      simp only [isPrefixChars, Bool.and_eq_true, decide_eq_true_eq, ih,
        List.cons_append, List.cons.injEq]
      constructor
      · rintro ⟨rfl, u, rfl⟩
        exact ⟨u, rfl, rfl⟩
      · rintro ⟨u, rfl, rfl⟩
        exact ⟨rfl, u, rfl⟩

theorem isPrefixChars_headD (r s : List Char) (c : Char)
    (h : isPrefixChars r s = true) (hrne : r ≠ []) :
    s ≠ [] ∧ s.headD c = r.headD c := by
  cases r with
  | nil => exact absurd rfl hrne
  | cons a l =>
    cases s with
    | nil => simp [isPrefixChars] at h
    | cons b m =>
      simp only [isPrefixChars, Bool.and_eq_true, decide_eq_true_eq] at h
      simp [h.1]

theorem walkEntries_mem_path (fuel : Nat) (pre : String) (es : List FSEntry)
    (q n : String) (h : (q, n) ∈ walkEntries fuel pre es) :
    ∃ rest, q.data = pre.data ++ '/' :: rest := by
  induction fuel generalizing pre es with
  | zero => simp [walkEntries] at h
  | succ fuel ih =>
    cases es with
    | nil => simp [walkEntries] at h
    | cons e rest2 =>
      cases e with
      | file name =>
        simp only [walkEntries] at h
        rcases List.mem_cons.mp h with h1 | h1
        · have hq : q = pre ++ "/" ++ name := congrArg Prod.fst h1
          refine ⟨name.data, ?_⟩
          rw [hq]
          simp [strData_append, slash_data]
        · exact ih pre rest2 h1
      | dir name children =>
        simp only [walkEntries] at h
        rcases List.mem_append.mp h with h1 | h1
        · by_cases hig : shouldIgnore name = true
          · rw [if_pos hig] at h1
            simp at h1
          · rw [if_neg hig] at h1
            obtain ⟨r, hr⟩ := ih (pre ++ "/" ++ name) children h1
            refine ⟨name.data ++ '/' :: r, ?_⟩
            rw [hr]
            simp [strData_append, slash_data]
        · exact ih pre rest2 h1

theorem addPathToTree_isDir (t : NodeT) (path rootPath : String) :
    (addPathToTree t path rootPath).isDir = t.isDir := by
  unfold addPathToTree
  cases hrel : filepathRel rootPath path with
  | none => rfl
  | some rel => exact addParts_isDir t path _

theorem leaf_addPathToTree (t : NodeT) (path rootPath q : String)
    (hd : t.isDir = true)
    (hpre : isPrefixChars (rootPath ++ "/").data path.data = true) :
    Leaf (addPathToTree t path rootPath) q ↔ Leaf t q ∨ q = path := by
  unfold addPathToTree filepathRel
  rw [if_pos hpre]
  exact leaf_addParts _ t path q hd (by
    intro hnil
    rcases List.map_eq_nil_iff.mp hnil with h2
    exact splitOnChar_ne_nil '/' _ h2)

theorem leaf_foldAdd (ps : List (String × String)) (rootPath : String)
    (t : NodeT) (q : String) (hd : t.isDir = true)
    (hpre : ∀ pn ∈ ps, isPrefixChars (rootPath ++ "/").data pn.1.data = true) :
    Leaf (ps.foldl (fun t2 pn => addPathToTree t2 pn.1 rootPath) t) q ↔
      Leaf t q ∨ ∃ n, (q, n) ∈ ps := by
  induction ps generalizing t with
  | nil => simp
  | cons pn rest ih =>
    simp only [List.foldl_cons]
    rw [ih _ (by rw [addPathToTree_isDir]; exact hd)
      (fun x hx => hpre x (List.mem_cons_of_mem _ hx))]
    rw [leaf_addPathToTree t pn.1 rootPath q hd (hpre pn (List.mem_cons_self _ _))]
    constructor
    · rintro ((h | h) | ⟨n, hn⟩)
      · exact Or.inl h
      · refine Or.inr ⟨pn.2, ?_⟩
        rw [h]
        simp
      · exact Or.inr ⟨n, List.mem_cons_of_mem _ hn⟩
    · rintro (h | ⟨n, hn⟩)
      · exact Or.inl (Or.inl h)
      · rcases List.mem_cons.mp hn with h1 | h1
        · exact Or.inl (Or.inr (congrArg Prod.fst h1))
        · exact Or.inr ⟨n, h1⟩

theorem isTestFile_eq_true_iff (n : String) :
    isTestFile n = true ↔
      (strEndsWith n ".test.ts" = true ∨ strEndsWith n ".test.js" = true ∨
       strEndsWith n ".spec.ts" = true ∨ strEndsWith n ".spec.js" = true) := by
  simp only [isTestFile, Bool.or_eq_true]
  tauto

/-- C10: `Walk` adds a leaf exactly for each file reached without entering
an ignored directory whose name passes the walker's private `isTestFile`
(four suffixes); names matched only by the extra `tsx`/`jsx` suffixes of
the public `IsTestFile` classifier are never added as leaves. -/

theorem walk_leaves_are_walker_test_files (root : String) (fs : List FSEntry)
    (fuel : Nat) :
    (∀ q, Leaf (Walk root fs fuel) q ↔
      ∃ n, (q, n) ∈ walkEntries fuel root fs ∧ isTestFile n = true) ∧
    (∀ n, (strEndsWith n ".test.tsx" || strEndsWith n ".test.jsx" ||
        strEndsWith n ".spec.tsx" || strEndsWith n ".spec.jsx") = true →
      isTestFile n = false ∧ IsTestFile n = true) := by
  constructor
  · intro q
    show Leaf (((walkEntries fuel root fs).filter
      (fun pn => isTestFile pn.2)).foldl
      (fun t pn => addPathToTree t pn.1 root)
      (.node (basename root) root true [])) q ↔ _
    have hpre : ∀ pn ∈ (walkEntries fuel root fs).filter
        (fun pn => isTestFile pn.2),
        isPrefixChars (root ++ "/").data pn.1.data = true := by
      intro pn hpn
      have hmem : pn ∈ walkEntries fuel root fs := (List.mem_filter.mp hpn).1
      obtain ⟨r, hr⟩ := walkEntries_mem_path fuel root fs pn.1 pn.2
        (by simpa using hmem)
      rw [isPrefixChars_iff_append]
      refine ⟨r, ?_⟩
      rw [hr, data_append_slash]
      simp
    rw [leaf_foldAdd _ root (.node (basename root) root true []) q rfl hpre,
      leaf_dir_iff]
    simp [List.mem_filter]
  · intro n hsuf
    have hsuf4 : strEndsWith n ".test.tsx" = true ∨
        strEndsWith n ".test.jsx" = true ∨
        strEndsWith n ".spec.tsx" = true ∨
        strEndsWith n ".spec.jsx" = true := by
      simpa [Bool.or_eq_true, or_assoc] using hsuf
    have hxne : n.data.reverse ≠ [] ∧ n.data.reverse.headD ' ' = 'x' := by
      rcases hsuf4 with h | h | h | h
      all_goals {
        simp only [strEndsWith] at h
        obtain ⟨hne2, hh⟩ := isPrefixChars_headD _ _ ' ' h (by decide)
        refine ⟨hne2, ?_⟩
        rw [hh]
        decide
      }
    refine ⟨?_, ?_⟩
    · cases hit : isTestFile n with
      | false => rfl
      | true =>
        exfalso
        rcases (isTestFile_eq_true_iff n).mp hit with h | h | h | h
        all_goals {
          simp only [strEndsWith] at h
          obtain ⟨-, hh⟩ := isPrefixChars_headD _ _ ' ' h (by decide)
          rw [hxne.2] at hh
          revert hh
          decide
        }
    · rcases hsuf4 with h | h | h | h <;> simp [IsTestFile, h]

theorem walk_leaves_are_walker_test_files_witness :
    Leaf (Walk "/r" fsC10 5) "/r/src/a.test.ts" ∧
    ¬ Leaf (Walk "/r" fsC10 5) "/r/src/b.test.tsx" ∧
    ¬ Leaf (Walk "/r" fsC10 5) "/r/node_modules/d.test.ts" ∧
    isTestFile "b.test.tsx" = false ∧ IsTestFile "b.test.tsx" = true := by
  have h := walk_leaves_are_walker_test_files "/r" fsC10 5
  refine ⟨?_, ?_, ?_, by decide, by decide⟩
  · exact (h.1 "/r/src/a.test.ts").mpr ⟨"a.test.ts", by decide, by decide⟩
  · intro hl
    obtain ⟨n, hn, ht⟩ := (h.1 _).mp hl
    have hd : ∀ pr ∈ walkEntries 5 "/r" fsC10,
        pr.1 = "/r/src/b.test.tsx" → isTestFile pr.2 = false := by decide
    have hfalse := hd ("/r/src/b.test.tsx", n) hn rfl
    simp only [hfalse] at ht
    cases ht
  · intro hl
    obtain ⟨n, hn, ht⟩ := (h.1 _).mp hl
    have hd : ∀ pr ∈ walkEntries 5 "/r" fsC10,
        pr.1 = "/r/node_modules/d.test.ts" → False := by decide
    exact hd ("/r/node_modules/d.test.ts", n) hn rfl

theorem interSlash_cons_cons (a b : List Char) (t : List (List Char)) :
    interSlash (a :: b :: t) = a ++ '/' :: interSlash (b :: t) := rfl

theorem interSlash_splitOnChar (l : List Char) :
    interSlash (splitOnChar '/' l) = l := by
  induction l with
  | nil => rfl
  | cons x xs ih =>
    simp only [splitOnChar]
    by_cases hx : x = '/'
    · rw [if_pos hx]
      cases hs : splitOnChar '/' xs with
      | nil => exact absurd hs (splitOnChar_ne_nil '/' xs)
      | cons r rs =>
        rw [interSlash_cons_cons, ← hs, ih, hx]
        rfl
    · rw [if_neg hx]
      cases hs : splitOnChar '/' xs with
      | nil => exact absurd hs (splitOnChar_ne_nil '/' xs)
      | cons r rs =>
        cases rs with
        | nil =>
          show (x :: r : List Char) = x :: xs
          have := ih
          rw [hs] at this
          simp only [interSlash] at this
          rw [this]
        | cons r2 rs2 =>
          rw [interSlash_cons_cons]
          have := ih
          rw [hs, interSlash_cons_cons] at this
          simp only [List.cons_append, this]

theorem interSlash_append_single (l1 : List (List Char)) (last : List Char)
    (h : l1 ≠ []) :
    interSlash (l1 ++ [last]) = interSlash l1 ++ '/' :: last := by
  induction l1 with
  | nil => exact absurd rfl h
  | cons a t ih =>
    cases t with
    | nil => rfl
    | cons b t2 =>
      have hih := ih (by simp)
      calc interSlash ((a :: b :: t2) ++ [last])
          = a ++ '/' :: interSlash ((b :: t2) ++ [last]) := rfl
        _ = a ++ '/' :: (interSlash (b :: t2) ++ '/' :: last) := by rw [hih]
        _ = (a ++ '/' :: interSlash (b :: t2)) ++ '/' :: last := by simp
        _ = interSlash (a :: b :: t2) ++ '/' :: last := by
            rw [interSlash_cons_cons]

theorem dirOf_cases (p : String) :
    dirOf p = p ∨ (dirOf p).data.length < p.data.length ∨ dirOf p = "." := by
  by_cases hlen : (splitOnChar '/' p.data).length ≤ 1
  · simp only [dirOf]
    rw [if_pos hlen]
    exact Or.inr (Or.inr rfl)
  · have hne : splitOnChar '/' p.data ≠ [] := splitOnChar_ne_nil '/' p.data
    obtain ⟨l1, last, hL⟩ : ∃ l1 last, splitOnChar '/' p.data = l1 ++ [last] :=
      ⟨_, _, (List.dropLast_append_getLast hne).symm⟩
    have hl1ne : l1 ≠ [] := by
      intro hnil
      rw [hnil] at hL
      rw [hL] at hlen
      simp at hlen
    have hdata : p.data = interSlash l1 ++ '/' :: last := by
      rw [← interSlash_splitOnChar p.data, hL, interSlash_append_single _ _ hl1ne]
    have hdir : dirOf p =
        (if (interSlash l1).isEmpty = true then "/" else ⟨interSlash l1⟩) := by
      simp only [dirOf]
      rw [if_neg hlen, hL, List.dropLast_concat]
    by_cases hempty : (interSlash l1).isEmpty = true
    · rw [if_pos hempty] at hdir
      have hemp : interSlash l1 = [] := by
        simpa [List.isEmpty_iff] using hempty
      rw [hemp] at hdata
      cases hlast : last with
      | nil =>
        rw [hlast] at hdata
        refine Or.inl ?_
        rw [hdir]
        cases p with
        | mk d =>
          have hd : d = ['/'] := hdata
          rw [hd]
      | cons c cs =>
        refine Or.inr (Or.inl ?_)
        rw [hdir, hdata, hlast]
        simp [slash_data]
    · rw [if_neg hempty] at hdir
      refine Or.inr (Or.inl ?_)
      rw [hdir]
      have hplen : p.data.length = (interSlash l1).length + (last.length + 1) := by
        rw [hdata]
        simp
      have : (⟨interSlash l1⟩ : String).data.length = (interSlash l1).length := rfl
      omega

theorem dirOf_dot : dirOf "." = "." := by decide

theorem ancestorChain_ends_fix (fuel : Nat) (dir : String)
    (h : dir.data.length + 2 ≤ fuel) :
    ∃ rest last, ancestorChain fuel dir = rest ++ [last] ∧ dirOf last = last := by
  induction fuel generalizing dir with
  | zero => omega
  | succ k ih =>
    by_cases hfix : dirOf dir = dir
    · refine ⟨[], dir, ?_, hfix⟩
      simp [ancestorChain, hfix]
    · have hstep : ancestorChain (k + 1) dir =
          dir :: ancestorChain k (dirOf dir) := by
        simp [ancestorChain, hfix]
      rcases dirOf_cases dir with hc | hc | hc
      · exact absurd hc hfix
      · obtain ⟨rest, last, hchain, hlast⟩ := ih (dirOf dir) (by omega)
        exact ⟨dir :: rest, last, by rw [hstep, hchain]; rfl, hlast⟩
      · have hk : 1 ≤ k := by
          have := h
          omega
        obtain ⟨k2, hk2⟩ : ∃ k2, k = k2 + 1 := ⟨k - 1, by omega⟩
        refine ⟨[dir], ".", ?_, dirOf_dot⟩
        rw [hstep, hc, hk2]
        simp [ancestorChain, dirOf_dot]

theorem find?_first {α : Type _} (p : α → Bool) (l : List α) (a : α) :
    l.find? p = some a ↔ ∃ l1 l2, l = l1 ++ a :: l2 ∧ p a = true ∧
      ∀ x ∈ l1, p x = false := by
  induction l with
  | nil => simp
  | cons b t ih =>
    by_cases hb : p b = true
    · rw [List.find?_cons_of_pos _ hb]
      constructor
      · intro h
        injection h with h
        refine ⟨[], t, ?_, ?_, by simp⟩
        · rw [h]
          rfl
        · rw [← h]
          exact hb
      · rintro ⟨l1, l2, heq, hpa, hl1⟩
        cases l1 with
        | nil =>
          simp only [List.nil_append, List.cons.injEq] at heq
          rw [heq.1]
        | cons c cs =>
          simp only [List.cons_append, List.cons.injEq] at heq
          have hc : p c = false := hl1 c (List.mem_cons_self c cs)
          rw [← heq.1] at hc
          rw [hb] at hc
          cases hc
    · have hbf : p b = false := by
        cases hpb : p b with
        | false => rfl
        | true => exact absurd hpb hb
      rw [List.find?_cons_of_neg _ hb, ih]
      constructor
      · rintro ⟨l1, l2, heq, hpa, hl1⟩
        refine ⟨b :: l1, l2, by rw [heq]; rfl, hpa, ?_⟩
        intro x hx
        rcases List.mem_cons.mp hx with h1 | h1
        · rw [h1]
          exact hbf
        · exact hl1 x h1
      · rintro ⟨l1, l2, heq, hpa, hl1⟩
        cases l1 with
        | nil =>
          simp only [List.nil_append, List.cons.injEq] at heq
          rw [heq.1] at hb
          exact absurd hpa hb
        | cons c cs =>
          simp only [List.cons_append, List.cons.injEq] at heq
          exact ⟨cs, l2, heq.2, hpa, fun x hx => hl1 x (List.mem_cons_of_mem _ hx)⟩

theorem getExecutionRootAux_eq_find (hasPkg : String → Bool) (fuel : Nat)
    (dir : String) :
    getExecutionRootAux hasPkg fuel dir =
      (ancestorChain fuel dir).find? hasPkg := by
  induction fuel generalizing dir with
  | zero => rfl
  | succ k ih =>
    simp only [getExecutionRootAux, ancestorChain]
    by_cases hp : hasPkg dir = true
    · rw [if_pos hp, List.find?_cons_of_pos _ hp]
    · have hpf : ¬ hasPkg dir = true := hp
      rw [if_neg hp, List.find?_cons_of_neg _ hpf]
      by_cases hfix : dirOf dir = dir
      · rw [if_pos hfix, if_pos hfix]
        rfl
      · rw [if_neg hfix, if_neg hfix, ih]

/-- C8: `PrepareJob` returns a job whose `Root` is the nearest ancestor
directory of the node path containing `package.json` (every nearer
ancestor lacks it), errs exactly when no ancestor has one — the inspected
chain really ends at the filesystem root — and on that error the engine's
`TriggerTest` marks the test failed, appends the explanatory `Error:`
line to the displayed output, and returns no runner command. -/

theorem prepareJob_root_nearest_and_engine_error
    (hasPkg : String → Bool)
    (buildCmd : String → String → String × List String) (p : String) :
    (∀ job, PrepareJob hasPkg buildCmd p = some job →
      hasPkg job.Root = true ∧
      ∃ l1 l2, ancestors p = l1 ++ job.Root :: l2 ∧
        ∀ d ∈ l1, hasPkg d = false) ∧
    (PrepareJob hasPkg buildCmd p = none ↔
      ∀ d ∈ ancestors p, hasPkg d = false) ∧
    (∃ l1 last, ancestors p = l1 ++ [last] ∧ dirOf last = last) ∧
    (∀ (s : EState) (node : ENode), node.Path = p →
      PrepareJob hasPkg buildCmd p = none →
      (TriggerTest hasPkg buildCmd s node).2 = none ∧
      alookup (TriggerTest hasPkg buildCmd s node).1.NodeStatus p =
        some TestStatus.StatusFail ∧
      (TriggerTest hasPkg buildCmd s node).1.CurrentOutput =
        "Running " ++ node.Name ++ "...\n" ++
          "Error: Could not find package.json\n") := by
  have hroot : ∀ r, GetExecutionRoot hasPkg p = some r ↔
      (ancestors p).find? hasPkg = some r := by
    intro r
    unfold GetExecutionRoot ancestors
    rw [getExecutionRootAux_eq_find]
  have hnone : GetExecutionRoot hasPkg p = none ↔
      (ancestors p).find? hasPkg = none := by
    unfold GetExecutionRoot ancestors
    rw [getExecutionRootAux_eq_find]
  refine ⟨?_, ?_, ?_, ?_⟩
  · intro job hjob
    unfold PrepareJob at hjob
    cases hr : GetExecutionRoot hasPkg p with
    | none =>
      rw [hr] at hjob
      cases hjob
    | some r =>
      rw [hr] at hjob
      simp only [Option.some.injEq] at hjob
      have hjr : job.Root = r := by
        rw [← hjob]
      obtain ⟨l1, l2, hsplit, hpr, hl1⟩ :=
        (find?_first hasPkg (ancestors p) r).mp ((hroot r).mp hr)
      exact ⟨by rw [hjr]; exact hpr, l1, l2, by rw [hjr]; exact hsplit,
        hl1⟩
  · unfold PrepareJob
    cases hr : GetExecutionRoot hasPkg p with
    | none =>
      constructor
      · intro hdummy d hd
        have hfn := hnone.mp hr
        have := List.find?_eq_none.mp hfn d hd
        cases hpd : hasPkg d with
        | false => rfl
        | true => exact absurd hpd this
      · intro hdummy
        rfl
    | some r =>
      have hfind := (hroot r).mp hr
      have hpr : hasPkg r = true := List.find?_some hfind
      have hmem : r ∈ ancestors p := List.mem_of_find?_eq_some hfind
      constructor
      · intro h
        exact Option.noConfusion h
      · intro hall
        have hfr := hall r hmem
        rw [hpr] at hfr
        cases hfr
  · exact ancestorChain_ends_fix _ _ (by
      have h1 : (dirOf p).data.length ≤ p.data.length + 1 := by
        rcases dirOf_cases p with hc | hc | hc
        · rw [hc]
          omega
        · omega
        · rw [hc]
          simp [slash_data]
      omega)
  · intro s node hnp hpj
    subst hnp
    unfold TriggerTest
    rw [hpj]
    refine ⟨rfl, ?_, rfl⟩
    simp [alookup_aset]

theorem prepareJob_root_nearest_and_engine_error_witness :
    (PrepareJob (fun d => d == "/r") (fun r p2 => ("npx", ["jest", p2, r]))
      "/r/src/a.test.ts" =
      some ⟨"npx", ["jest", "/r/src/a.test.ts", "/r"], "/r"⟩) ∧
    ((fun d => d == "/r") "/r" = true ∧
      ∃ l1 l2, ancestors "/r/src/a.test.ts" = l1 ++ "/r" :: l2 ∧
        ∀ d ∈ l1, (fun d => d == "/r") d = false) ∧
    (PrepareJob (fun _ => false) (fun _ _ => ("npx", []))
      "/r/src/a.test.ts" = none) ∧
    ((TriggerTest (fun _ => false) (fun _ _ => ("npx", [])) (NewState "/r")
        ⟨"a.test.ts", "/r/src/a.test.ts"⟩).2 = none ∧
      alookup (TriggerTest (fun _ => false) (fun _ _ => ("npx", []))
        (NewState "/r") ⟨"a.test.ts", "/r/src/a.test.ts"⟩).1.NodeStatus
        "/r/src/a.test.ts" = some TestStatus.StatusFail ∧
      (TriggerTest (fun _ => false) (fun _ _ => ("npx", [])) (NewState "/r")
        ⟨"a.test.ts", "/r/src/a.test.ts"⟩).1.CurrentOutput =
        "Running " ++ "a.test.ts" ++ "...\n" ++
          "Error: Could not find package.json\n") := by
  have h1 := prepareJob_root_nearest_and_engine_error (fun d => d == "/r")
    (fun r p2 => ("npx", ["jest", p2, r])) "/r/src/a.test.ts"
  have h2 := prepareJob_root_nearest_and_engine_error (fun _ => false)
    (fun _ _ => ("npx", [])) "/r/src/a.test.ts"
  refine ⟨by decide, ?_, ?_, ?_⟩
  · exact h1.1 ⟨"npx", ["jest", "/r/src/a.test.ts", "/r"], "/r"⟩ (by decide)
  · exact h2.2.1.mpr (by decide)
  · exact h2.2.2.2 (NewState "/r") ⟨"a.test.ts", "/r/src/a.test.ts"⟩ rfl
      (h2.2.1.mpr (by decide))

theorem enqueueWatched_cons (a : String) (ws q : List String) :
    enqueueWatched (a :: ws) q =
      enqueueWatched ws (if a ∈ q then q else q ++ [a]) := rfl

theorem enqueueWatched_mem (ws q : List String) (w : String) :
    w ∈ enqueueWatched ws q ↔ w ∈ q ∨ w ∈ ws := by
  induction ws generalizing q with
  | nil => simp [enqueueWatched]
  | cons a ws ih =>
    rw [enqueueWatched_cons, ih]
    by_cases ha : a ∈ q
    · rw [if_pos ha]
      constructor
      · rintro (h | h)
        · exact Or.inl h
        · exact Or.inr (List.mem_cons_of_mem _ h)
      · rintro (h | h)
        · exact Or.inl h
        · rcases List.mem_cons.mp h with h2 | h2
          · rw [h2]
            exact Or.inl ha
          · exact Or.inr h2
    · rw [if_neg ha]
      simp only [List.mem_append, List.mem_singleton, List.mem_cons]
      tauto

theorem enqueueWatched_nodup (ws q : List String) (h : q.Nodup) :
    (enqueueWatched ws q).Nodup := by
  induction ws generalizing q with
  | nil => exact h
  | cons a ws ih =>
    rw [enqueueWatched_cons]
    by_cases ha : a ∈ q
    · rw [if_pos ha]
      exact ih q h
    · rw [if_neg ha]
      refine ih _ (List.nodup_append.mpr ⟨h, List.nodup_singleton a, ?_⟩)
      intro x hx hxa
      exact ha (List.mem_singleton.mp hxa ▸ hx)

theorem enqueueWatched_of_all_mem (ws q : List String)
    (h : ∀ w ∈ ws, w ∈ q) : enqueueWatched ws q = q := by
  induction ws generalizing q with
  | nil => rfl
  | cons a ws ih =>
    rw [enqueueWatched_cons, if_pos (h a (List.mem_cons_self a ws))]
    exact ih q (fun w hw => h w (List.mem_cons_of_mem _ hw))

theorem enqueueWatched_idem (ws q : List String) :
    enqueueWatched ws (enqueueWatched ws q) = enqueueWatched ws q :=
  enqueueWatched_of_all_mem ws _ (fun w hw =>
    (enqueueWatched_mem ws q w).mpr (Or.inr hw))

theorem processWatcherMsg_running (hasPkg : String → Bool)
    (buildCmd : String → String → String × List String) (g : Graph)
    (parse : Option ImportResult) (s : EState) (path : String) (n : ENode)
    (hrun : s.RunningNode = some n) :
    processWatcherMsg hasPkg buildCmd g parse s path =
      (g.Update path parse,
       { s with Queue := enqueueWatched s.Watched s.Queue }, none) := by
  obtain ⟨w, q, ns, to2, rn, lrn, co, rp⟩ := s
  have hrn : rn = some n := hrun
  subst hrn
  rfl

/-- C1: contrary to the claim, the `WatcherMsg` handler consults neither
the changed path nor the dependency graph when queueing: it appends every
watched file not already queued.  With the mocked edge
`mock.test.ts → u.ts` recorded in the graph, a change event for `u.ts`
enqueues `mock.test.ts` alongside `real.test.ts`; the last conjunct shows
the queue outcome is the same for every graph, parse result and path. -/

theorem watcherMsg_enqueues_all_watched_ignoring_graph :
    ((foldUpdates scenario6Calls).fwd "/r/mock.test.ts" "/r/u.ts" =
      some DependencyType.DepMocked) ∧
    ((foldUpdates scenario6Calls).fwd "/r/real.test.ts" "/r/u.ts" =
      some DependencyType.DepRegular) ∧
    ((processWatcherMsg (fun _ => false) (fun _ _ => ("", []))
        (foldUpdates scenario6Calls) (some ⟨[], []⟩) scenario6State
        "/r/u.ts").2.1.Queue =
      ["/r/real.test.ts", "/r/mock.test.ts"]) ∧
    (∀ (g : Graph) (parse : Option ImportResult) (path : String),
      (processWatcherMsg (fun _ => false) (fun _ _ => ("", []))
        g parse scenario6State path).2.1.Queue =
        ["/r/real.test.ts", "/r/mock.test.ts"]) := by
  refine ⟨by decide, by decide, by decide, ?_⟩
  intro g parse path
  rfl

/-- C9 counterexample: while the test for `q` runs, a ChangeEvent
re-enqueues `q` itself — the handler checks the queue but never the
running node, refuting "never re-enqueues q". -/

theorem running_path_is_reenqueued :
    scenario9State.RunningNode = some ⟨"q.test.ts", "/r/q.test.ts"⟩ ∧
    "/r/q.test.ts" ∉ scenario9State.Queue ∧
    (processWatcherMsg (fun _ => false) (fun _ _ => ("", []))
      Graph.empty (some ⟨[], []⟩) scenario9State "/r/u.ts").2.1.Queue =
      ["/r/q.test.ts"] := ⟨rfl, by decide, rfl⟩

/-- C9 (amended): while a test runs, a ChangeEvent never preempts it (the
running node is untouched and nothing new is launched) and an entry is
appended only if not already queued, so processing the same event twice
changes nothing the second time and a duplicate-free queue stays
duplicate-free; however the running path itself, when watched, is
re-enqueued like any other watched path. -/

theorem watcherMsg_while_running_no_preempt_dedup (hasPkg : String → Bool)
    (buildCmd : String → String → String × List String) (g : Graph)
    (parse : Option ImportResult) (s : EState) (path : String) (n : ENode)
    (hrun : s.RunningNode = some n) :
    ((processWatcherMsg hasPkg buildCmd g parse s path).2.1.RunningNode =
      some n) ∧
    ((processWatcherMsg hasPkg buildCmd g parse s path).2.2 = none) ∧
    ((processWatcherMsg hasPkg buildCmd g parse s path).2.1.Queue =
      enqueueWatched s.Watched s.Queue) ∧
    (∀ w, w ∈ (processWatcherMsg hasPkg buildCmd g parse s path).2.1.Queue ↔
      w ∈ s.Queue ∨ w ∈ s.Watched) ∧
    (s.Queue.Nodup →
      (processWatcherMsg hasPkg buildCmd g parse s path).2.1.Queue.Nodup) ∧
    (∀ (g2 : Graph) (parse2 : Option ImportResult),
      (processWatcherMsg hasPkg buildCmd g2 parse2
        (processWatcherMsg hasPkg buildCmd g parse s path).2.1
        path).2.1.Queue =
      (processWatcherMsg hasPkg buildCmd g parse s path).2.1.Queue) := by
  have hred := processWatcherMsg_running hasPkg buildCmd g parse s path n hrun
  refine ⟨?_, ?_, ?_, ?_, ?_, ?_⟩
  · rw [hred]
    exact hrun
  · rw [hred]
  · rw [hred]
  · intro w
    rw [hred]
    exact enqueueWatched_mem s.Watched s.Queue w
  · intro h
    rw [hred]
    exact enqueueWatched_nodup s.Watched s.Queue h
  · intro g2 parse2
    have hrun2 : (processWatcherMsg hasPkg buildCmd g parse s
        path).2.1.RunningNode = some n := by
      rw [hred]
      exact hrun
    rw [processWatcherMsg_running hasPkg buildCmd g2 parse2 _ path n hrun2,
      hred]
    exact enqueueWatched_idem s.Watched s.Queue

theorem watcherMsg_while_running_no_preempt_dedup_witness :
    scenario9State.RunningNode = some ⟨"q.test.ts", "/r/q.test.ts"⟩ ∧
    ((processWatcherMsg (fun _ => false) (fun _ _ => ("", []))
      Graph.empty (some ⟨[], []⟩) scenario9State "/r/u.ts").2.1.RunningNode =
      some ⟨"q.test.ts", "/r/q.test.ts"⟩) ∧
    ((processWatcherMsg (fun _ => false) (fun _ _ => ("", []))
      Graph.empty (some ⟨[], []⟩) scenario9State "/r/u.ts").2.2 = none) ∧
    ((processWatcherMsg (fun _ => false) (fun _ _ => ("", []))
      Graph.empty (some ⟨[], []⟩)
      (processWatcherMsg (fun _ => false) (fun _ _ => ("", []))
        Graph.empty (some ⟨[], []⟩) scenario9State "/r/u.ts").2.1
      "/r/u.ts").2.1.Queue =
      (processWatcherMsg (fun _ => false) (fun _ _ => ("", []))
        Graph.empty (some ⟨[], []⟩) scenario9State "/r/u.ts").2.1.Queue) := by
  have h := watcherMsg_while_running_no_preempt_dedup (fun _ => false)
    (fun _ _ => ("", [])) Graph.empty (some ⟨[], []⟩) scenario9State
    "/r/u.ts" ⟨"q.test.ts", "/r/q.test.ts"⟩ rfl
  exact ⟨rfl, h.1, h.2.1, h.2.2.2.2.2 Graph.empty (some ⟨[], []⟩)⟩

theorem parseFold_acc (text : List Char) (absKey : String → String)
    (disk : String → Option String) :
    ∀ (specs : List String) (acc : ImportResult),
      specs.foldl (parseStep text absKey disk) acc =
        ⟨acc.Resolved ++ (ParseImports text specs absKey disk).Resolved,
         acc.Unresolved ++ (ParseImports text specs absKey disk).Unresolved⟩ := by
  intro specs
  induction specs with
  | nil =>
    intro acc
    simp [ParseImports]
  | cons s0 rest ih =>
    intro acc
    have hstep : ∀ (a : ImportResult) (s : String),
        parseStep text absKey disk a s =
          ⟨a.Resolved ++ (parseStep text absKey disk ⟨[], []⟩ s).Resolved,
           a.Unresolved ++
             (parseStep text absKey disk ⟨[], []⟩ s).Unresolved⟩ := by
      intro a s
      unfold parseStep
      by_cases hrel : isPrefixChars ".".data s.data = true
      · rw [if_pos hrel, if_pos hrel]
        cases disk (absKey s) with
        | some found => simp
        | none => simp
      · rw [if_neg hrel, if_neg hrel]
        simp
    have h2 : ParseImports text (s0 :: rest) absKey disk =
        ⟨(parseStep text absKey disk ⟨[], []⟩ s0).Resolved ++
          (ParseImports text rest absKey disk).Resolved,
         (parseStep text absKey disk ⟨[], []⟩ s0).Unresolved ++
          (ParseImports text rest absKey disk).Unresolved⟩ := by
      show (s0 :: rest).foldl (parseStep text absKey disk) ⟨[], []⟩ = _
      rw [List.foldl_cons, ih]
    rw [List.foldl_cons, ih, hstep acc s0, h2]
    simp

theorem resolvedKind_append (l1 l2 : List ImportEntry) (b : String) :
    resolvedKind (l1 ++ l2) b =
      match resolvedKind l2 b with
      | some k => some k
      | none => resolvedKind l1 b := by
  have h := resolvedKind_acc b l2 (resolvedKind l1 b)
  rw [← h]
  unfold resolvedKind
  rw [List.foldl_append]

theorem resolvedKind_parse (text : List Char) (absKey : String → String)
    (disk : String → Option String) (target : String) (m : Bool) :
    ∀ specs : List String,
      (∀ s2 ∈ specs, isPrefixChars ".".data s2.data = true →
        disk (absKey s2) = some target → isMockedSpec text s2 = m) →
      (resolvedKind (ParseImports text specs absKey disk).Resolved target =
          none ∨
        resolvedKind (ParseImports text specs absKey disk).Resolved target =
          some (if m then DepMocked else DepRegular)) ∧
      ((∃ s ∈ specs, isPrefixChars ".".data s.data = true ∧
          disk (absKey s) = some target) →
        resolvedKind (ParseImports text specs absKey disk).Resolved target =
          some (if m then DepMocked else DepRegular)) := by
  intro specs
  induction specs with
  | nil =>
    intro hagree
    refine ⟨Or.inl rfl, ?_⟩
    rintro ⟨s, hs, -⟩
    simp at hs
  | cons s0 rest ih =>
    intro hagree
    obtain ⟨ihA, ihB⟩ := ih (fun s2 h2 => hagree s2 (List.mem_cons_of_mem _ h2))
    have hA : (isPrefixChars ".".data s0.data = true ∧
          disk (absKey s0) = some target →
        resolvedKind (parseStep text absKey disk ⟨[], []⟩ s0).Resolved target =
          some (if isMockedSpec text s0 then DepMocked else DepRegular)) ∧
        (¬ (isPrefixChars ".".data s0.data = true ∧
          disk (absKey s0) = some target) →
        resolvedKind (parseStep text absKey disk ⟨[], []⟩ s0).Resolved target =
          none) := by
      unfold parseStep
      by_cases hrel : isPrefixChars ".".data s0.data = true
      · rw [if_pos hrel]
        cases hd : disk (absKey s0) with
        | none =>
          refine ⟨?_, fun hn => rfl⟩
          rintro ⟨-, hcon⟩
          cases hcon
        | some found =>
          by_cases hf : found = target
          · subst hf
            refine ⟨fun hc => by simp [resolvedKind], ?_⟩
            intro hn
            exact absurd ⟨hrel, rfl⟩ hn
          · refine ⟨?_, fun hn => by simp [resolvedKind, hf]⟩
            rintro ⟨-, hcon⟩
            injection hcon with hcon
            exact absurd hcon hf
      · rw [if_neg hrel]
        refine ⟨?_, fun hn => rfl⟩
        rintro ⟨hcon, -⟩
        exact absurd hcon hrel
    have hsplit : (ParseImports text (s0 :: rest) absKey disk).Resolved =
        (parseStep text absKey disk ⟨[], []⟩ s0).Resolved ++
          (ParseImports text rest absKey disk).Resolved := by
      show ((s0 :: rest).foldl (parseStep text absKey disk)
        ⟨[], []⟩).Resolved = _
      rw [List.foldl_cons, parseFold_acc]
    rw [hsplit, resolvedKind_append]
    cases hR : resolvedKind (ParseImports text rest absKey disk).Resolved
        target with
    | some k =>
      have hk : k = if m then DepMocked else DepRegular := by
        rcases ihA with h | h
        · rw [hR] at h
          cases h
        · rw [hR] at h
          injection h
      subst hk
      exact ⟨Or.inr rfl, fun hex => rfl⟩
    | none =>
      by_cases hcond : isPrefixChars ".".data s0.data = true ∧
          disk (absKey s0) = some target
      · have h0 := hA.1 hcond
        rw [hagree s0 (List.mem_cons_self s0 rest) hcond.1 hcond.2] at h0
        exact ⟨Or.inr h0, fun hex => h0⟩
      · have h0 := hA.2 hcond
        refine ⟨Or.inl h0, ?_⟩
        rintro ⟨s, hsmem, hsrel, hsdisk⟩
        rcases List.mem_cons.mp hsmem with h1 | h1
        · rw [h1] at hsrel hsdisk
          exact absurd ⟨hsrel, hsdisk⟩ hcond
        · rw [ihB ⟨s, h1, hsrel, hsdisk⟩] at hR
          cases hR

/-- C2 (spec-modelled parser): when the file text contains
`jest.mock`/`jest.doMock`/`jest.setMock` for a relative specifier
resolving to `target`, updating the file records the `target` edge with
kind mocked in both `Forward` and `Reverse`, `GetDependents target` still
contains the file, and an import whose specifier carries no mock
declaration gets kind regular.  Hypotheses: the file is a source file;
its unresolved keys are not its own candidate keys (a file that was
parsed exists on disk, so a key it satisfies resolves); specifiers
resolving to the same target agree on mockedness (one disk file,
one import). -/

theorem update_records_mocked_edges
    (calls : List (String × Option ImportResult)) (f : String)
    (text : List Char) (specs : List String) (absKey : String → String)
    (disk : String → Option String) (s s2 target target2 : String)
    (hsrc : isSourceFile (basename f) = true)
    (hu : ∀ u ∈ (ParseImports text specs absKey disk).Unresolved,
      u.Path ∉ candidates f)
    (hs : s ∈ specs) (hrel : isPrefixChars ".".data s.data = true)
    (hdisk : disk (absKey s) = some target)
    (hagree : ∀ s3 ∈ specs, isPrefixChars ".".data s3.data = true →
      disk (absKey s3) = some target → isMockedSpec text s3 = true)
    (hs2 : s2 ∈ specs) (hrel2 : isPrefixChars ".".data s2.data = true)
    (hdisk2 : disk (absKey s2) = some target2)
    (hnomock : ∀ s3 ∈ specs, isPrefixChars ".".data s3.data = true →
      disk (absKey s3) = some target2 → isMockedSpec text s3 = false)
    (hne : f ≠ target) :
    ((foldUpdates calls).Update f
      (some (ParseImports text specs absKey disk))).fwd f target =
      some DependencyType.DepMocked ∧
    ((foldUpdates calls).Update f
      (some (ParseImports text specs absKey disk))).rev target f =
      some DependencyType.DepMocked ∧
    f ∈ ((foldUpdates calls).Update f
      (some (ParseImports text specs absKey disk))).GetDependents target ∧
    ((foldUpdates calls).Update f
      (some (ParseImports text specs absKey disk))).fwd f target2 =
      some DependencyType.DepRegular ∧
    ((foldUpdates calls).Update f
      (some (ParseImports text specs absKey disk))).rev target2 f =
      some DependencyType.DepRegular := by
  have hps := foldUpdates_pendingSelf calls
  have hfwd := Update_fwd_char (foldUpdates calls) f
    (ParseImports text specs absKey disk) hsrc hu hps
  have hmirror : Mirror ((foldUpdates calls).Update f
      (some (ParseImports text specs absKey disk))) :=
    Update_mirror _ f _ (foldUpdates_mirror calls)
  have hk1 : resolvedKind (ParseImports text specs absKey disk).Resolved
      target = some DepMocked := by
    have h := (resolvedKind_parse text absKey disk target true specs
      hagree).2 ⟨s, hs, hrel, hdisk⟩
    exact h
  have hk2 : resolvedKind (ParseImports text specs absKey disk).Resolved
      target2 = some DepRegular := by
    have h := (resolvedKind_parse text absKey disk target2 false specs
      hnomock).2 ⟨s2, hs2, hrel2, hdisk2⟩
    exact h
  have h1 : ((foldUpdates calls).Update f
      (some (ParseImports text specs absKey disk))).fwd f target =
      some DependencyType.DepMocked := by
    rw [hfwd]
    exact hk1
  have h2 := (hmirror f target DepMocked).mp h1
  have h4 : ((foldUpdates calls).Update f
      (some (ParseImports text specs absKey disk))).fwd f target2 =
      some DependencyType.DepRegular := by
    rw [hfwd]
    exact hk2
  refine ⟨h1, h2, ?_, h4, (hmirror f target2 DepRegular).mp h4⟩
  have hstep : revStep ((foldUpdates calls).Update f
      (some (ParseImports text specs absKey disk))) target f := by
    unfold Graph.rev at h2
    cases hdeps : alookup ((foldUpdates calls).Update f
        (some (ParseImports text specs absKey disk))).Reverse target with
    | none =>
      rw [hdeps] at h2
      cases h2
    | some deps =>
      rw [hdeps] at h2
      have h2' : alookup deps f = some DepMocked := h2
      exact ⟨deps, hdeps, alookup_mem_keys h2'⟩
  exact ((GetDependents_spec _ target).1 f).mpr
    ⟨Relation.TransGen.single hstep, hne⟩

theorem update_records_mocked_edges_witness :
    (isMockedSpec c2text "./u" = true) ∧
    (isMockedSpec c2text "./v" = false) ∧
    ((Graph.empty.Update "/r/mock.test.ts"
      (some (ParseImports c2text ["./u", "./v"] c2absKey c2disk))).fwd
      "/r/mock.test.ts" "/r/u.ts" = some DependencyType.DepMocked) ∧
    ((Graph.empty.Update "/r/mock.test.ts"
      (some (ParseImports c2text ["./u", "./v"] c2absKey c2disk))).rev
      "/r/u.ts" "/r/mock.test.ts" = some DependencyType.DepMocked) ∧
    ("/r/mock.test.ts" ∈ (Graph.empty.Update "/r/mock.test.ts"
      (some (ParseImports c2text ["./u", "./v"] c2absKey c2disk))).GetDependents
      "/r/u.ts") ∧
    ((Graph.empty.Update "/r/mock.test.ts"
      (some (ParseImports c2text ["./u", "./v"] c2absKey c2disk))).fwd
      "/r/mock.test.ts" "/r/v.ts" = some DependencyType.DepRegular) ∧
    ((Graph.empty.Update "/r/mock.test.ts"
      (some (ParseImports c2text ["./u", "./v"] c2absKey c2disk))).rev
      "/r/v.ts" "/r/mock.test.ts" = some DependencyType.DepRegular) := by
  have h := update_records_mocked_edges [] "/r/mock.test.ts" c2text
    ["./u", "./v"] c2absKey c2disk "./u" "./v" "/r/u.ts" "/r/v.ts"
    (by decide) (by decide) (by decide) (by decide) (by decide) (by decide)
    (by decide) (by decide) (by decide) (by decide) (by decide)
  exact ⟨by decide, by decide, h.1, h.2.1, h.2.2.1, h.2.2.2.1, h.2.2.2.2⟩

theorem runTrace_append (l1 l2 : List REvent) :
    ∀ curr, runTrace curr (l1 ++ l2) =
      runTrace curr l1 ++ runTrace (foldCurr curr l1) l2 := by
  induction l1 with
  | nil => intro curr; rfl
  | cons e es ih =>
    intro curr
    show emitMsgs curr e ++ runTrace (stepCurr curr e) (es ++ l2) = _
    rw [ih (stepCurr curr e)]
    simp [runTrace, foldCurr, List.append_assoc]

theorem foldCurr_stays (l : List REvent) (r : Nat) :
    ∀ curr, curr = some r → (∀ r2, REvent.start r2 ∉ l) →
      REvent.wait r ∉ l → foldCurr curr l = some r := by
  induction l with
  | nil =>
    intro curr hc _ _
    exact hc
  | cons e es ih =>
    intro curr hc hns hnw
    have hstep : stepCurr curr e = some r := by
      cases e with
      | start r2 => exact absurd (List.mem_cons_self _ _) (hns r2)
      | out r2 i => exact hc
      | failStatus r2 => exact hc
      | wait r2 =>
        have hne : r2 ≠ r := by
          intro h
          exact hnw (h ▸ List.mem_cons_self _ _)
        simp only [stepCurr, hc]
        rw [if_neg (by simp [Ne.symm hne])]
    show foldCurr (stepCurr curr e) es = some r
    exact ih _ hstep (fun r2 h => hns r2 (List.mem_cons_of_mem _ h))
      (fun h => hnw (List.mem_cons_of_mem _ h))

theorem foldCurr_never_back (l : List REvent) (r : Nat) :
    ∀ curr, curr ≠ some r → REvent.start r ∉ l →
      foldCurr curr l ≠ some r := by
  induction l with
  | nil =>
    intro curr hc _
    exact hc
  | cons e es ih =>
    intro curr hc hns
    refine ih (stepCurr curr e) ?_ (fun h => hns (List.mem_cons_of_mem _ h))
    cases e with
    | start r2 =>
      have hne : r2 ≠ r := by
        intro h
        exact hns (h ▸ List.mem_cons_self _ _)
      simp [stepCurr, hne]
    | out r2 i => exact hc
    | failStatus r2 => exact hc
    | wait r2 =>
      simp only [stepCurr]
      split
      · simp
      · exact hc

theorem no_status_without_wait (l : List REvent) (r : Nat) :
    ∀ curr, REvent.wait r ∉ l → REvent.failStatus r ∉ l →
      RMsg.status r ∉ runTrace curr l := by
  induction l with
  | nil =>
    intro curr _ _ h
    simp [runTrace] at h
  | cons e es ih =>
    intro curr hnw hnf hmem
    rcases List.mem_append.mp hmem with h1 | h1
    · cases e with
      | start r2 => simp [emitMsgs] at h1
      | out r2 i => simp [emitMsgs] at h1
      | failStatus r2 =>
        simp only [emitMsgs, List.mem_singleton] at h1
        injection h1 with h1
        exact hnf (h1 ▸ List.mem_cons_self _ _)
      | wait r2 =>
        simp only [emitMsgs] at h1
        split at h1
        · simp only [List.mem_singleton] at h1
          injection h1 with h1
          exact hnw (h1 ▸ List.mem_cons_self _ _)
        · simp at h1
    · exact ih (stepCurr curr e) (fun h => hnw (List.mem_cons_of_mem _ h))
        (fun h => hnf (List.mem_cons_of_mem _ h)) h1

theorem no_status_of (l : List REvent) (r : Nat) :
    ∀ curr, curr ≠ some r → REvent.start r ∉ l →
      REvent.failStatus r ∉ l → RMsg.status r ∉ runTrace curr l := by
  induction l with
  | nil =>
    intro curr _ _ _ h
    simp [runTrace] at h
  | cons e es ih =>
    intro curr hc hns hnf hmem
    rcases List.mem_append.mp hmem with h1 | h1
    · cases e with
      | start r2 => simp [emitMsgs] at h1
      | out r2 i => simp [emitMsgs] at h1
      | failStatus r2 =>
        simp only [emitMsgs, List.mem_singleton] at h1
        injection h1 with h1
        exact hnf (h1 ▸ List.mem_cons_self _ _)
      | wait r2 =>
        simp only [emitMsgs] at h1
        split at h1
        · rename_i hcurr
          simp only [List.mem_singleton] at h1
          injection h1 with h1
          rw [← h1] at hcurr
          exact hc hcurr
        · simp at h1
    · refine ih (stepCurr curr e) ?_
        (fun h => hns (List.mem_cons_of_mem _ h))
        (fun h => hnf (List.mem_cons_of_mem _ h)) h1
      cases e with
      | start r2 =>
        have hne : r2 ≠ r := by
          intro h
          exact hns (h ▸ List.mem_cons_self _ _)
        simp [stepCurr, hne]
      | out r2 i => exact hc
      | failStatus r2 => exact hc
      | wait r2 =>
        simp only [stepCurr]
        split
        · simp
        · exact hc

theorem no_output_of (l : List REvent) (r : Nat) :
    ∀ curr, (∀ i, REvent.out r i ∉ l) →
      ∀ i, RMsg.output r i ∉ runTrace curr l := by
  induction l with
  | nil =>
    intro curr _ i h
    simp [runTrace] at h
  | cons e es ih =>
    intro curr hno i hmem
    rcases List.mem_append.mp hmem with h1 | h1
    · cases e with
      | start r2 => simp [emitMsgs] at h1
      | out r2 i2 =>
        simp only [emitMsgs, List.mem_singleton] at h1
        injection h1 with h1 h2
        exact hno i2 (h1 ▸ List.mem_cons_self _ _)
      | failStatus r2 => simp [emitMsgs] at h1
      | wait r2 =>
        simp only [emitMsgs] at h1
        split at h1 <;> simp at h1
    · exact ih (stepCurr curr e)
        (fun i2 h => hno i2 (List.mem_cons_of_mem _ h)) i h1

/-- C7: on the `Updates` channel every `Run` emits its output lines
before its status, and statuses obey the supersede rule.  Part one: a run
whose process is waited on while no other `Run` was issued in between
delivers exactly one `StatusUpdate`, with none of the run's messages
after it.  Part two: if another `Run` starts while the run is active
(before its wait), the run's `StatusUpdate` is suppressed — it never
appears.  Part three: a run whose spawn fails delivers exactly one
`StatusUpdate` unconditionally. -/

theorem runner_output_then_status (curr0 : Option Nat) :
    (∀ (t1 t2 t3 : List REvent) (r : Nat),
      REvent.wait r ∉ t1 → REvent.wait r ∉ t2 → REvent.wait r ∉ t3 →
      REvent.start r ∉ t3 →
      REvent.failStatus r ∉ t1 → REvent.failStatus r ∉ t2 →
      REvent.failStatus r ∉ t3 →
      (∀ r2, REvent.start r2 ∉ t2) → (∀ i, REvent.out r i ∉ t3) →
      ∃ c1 c2,
        runTrace curr0 ((t1 ++ REvent.start r :: t2) ++ REvent.wait r :: t3) =
          c1 ++ RMsg.status r :: c2 ∧
        RMsg.status r ∉ c1 ∧ RMsg.status r ∉ c2 ∧
        ∀ i, RMsg.output r i ∉ c2) ∧
    (∀ (t1 t2 t3 t4 : List REvent) (r r2 : Nat), r2 ≠ r →
      REvent.wait r ∉ t1 → REvent.wait r ∉ t2 → REvent.wait r ∉ t3 →
      REvent.wait r ∉ t4 → REvent.start r ∉ t3 → REvent.start r ∉ t4 →
      REvent.failStatus r ∉ t1 → REvent.failStatus r ∉ t2 →
      REvent.failStatus r ∉ t3 → REvent.failStatus r ∉ t4 →
      RMsg.status r ∉ runTrace curr0
        (((t1 ++ REvent.start r :: t2) ++ REvent.start r2 :: t3) ++
          REvent.wait r :: t4)) ∧
    (∀ (t1 t2 : List REvent) (r : Nat),
      REvent.wait r ∉ t1 → REvent.wait r ∉ t2 →
      REvent.failStatus r ∉ t1 → REvent.failStatus r ∉ t2 →
      (∀ i, REvent.out r i ∉ t2) →
      ∃ c1 c2,
        runTrace curr0 (t1 ++ REvent.failStatus r :: t2) =
          c1 ++ RMsg.status r :: c2 ∧
        RMsg.status r ∉ c1 ∧ RMsg.status r ∉ c2 ∧
        ∀ i, RMsg.output r i ∉ c2) := by
  refine ⟨?_, ?_, ?_⟩
  · intro t1 t2 t3 r hw1 hw2 hw3 hs3 hf1 hf2 hf3 hns2 hout3
    have hfc : foldCurr curr0 (t1 ++ REvent.start r :: t2) = some r := by
      show (t1 ++ REvent.start r :: t2).foldl stepCurr curr0 = some r
      rw [List.foldl_append, List.foldl_cons]
      exact foldCurr_stays t2 r _ rfl hns2 hw2
    have hsplit : runTrace curr0
        ((t1 ++ REvent.start r :: t2) ++ REvent.wait r :: t3) =
        (runTrace curr0 t1 ++ runTrace (some r) t2) ++
          (RMsg.status r :: runTrace none t3) := by
      rw [runTrace_append (t1 ++ REvent.start r :: t2) _ curr0, hfc,
        runTrace_append t1 _ curr0]
      show (runTrace curr0 t1 ++ runTrace (some r) t2) ++
          (emitMsgs (some r) (REvent.wait r) ++
            runTrace (stepCurr (some r) (REvent.wait r)) t3) = _
      rw [show emitMsgs (some r) (REvent.wait r) = [RMsg.status r] from by
          simp [emitMsgs],
        show stepCurr (some r) (REvent.wait r) = none from by
          simp [stepCurr]]
      rfl
    refine ⟨runTrace curr0 t1 ++ runTrace (some r) t2, runTrace none t3,
      by rw [hsplit], ?_, ?_, ?_⟩
    · intro hmem
      rcases List.mem_append.mp hmem with h | h
      · exact no_status_without_wait t1 r curr0 hw1 hf1 h
      · exact no_status_without_wait t2 r (some r) hw2 hf2 h
    · exact no_status_of t3 r none (by simp) hs3 hf3
    · exact no_output_of t3 r none hout3
  · intro t1 t2 t3 t4 r r2 hr2 hw1 hw2 hw3 hw4 hs3 hs4 hf1 hf2 hf3 hf4
    have hfc : foldCurr curr0
        ((t1 ++ REvent.start r :: t2) ++ REvent.start r2 :: t3) =
        foldCurr (some r2) t3 := by
      show (((t1 ++ REvent.start r :: t2)) ++
        REvent.start r2 :: t3).foldl stepCurr curr0 = _
      rw [List.foldl_append, List.foldl_cons]
      rfl
    have hcur : foldCurr (some r2) t3 ≠ some r :=
      foldCurr_never_back t3 r (some r2) (by simp [hr2]) hs3
    rw [runTrace_append ((t1 ++ REvent.start r :: t2) ++
      REvent.start r2 :: t3) _ curr0, hfc]
    intro hmem
    rcases List.mem_append.mp hmem with h | h
    · rw [runTrace_append (t1 ++ REvent.start r :: t2) _ curr0] at h
      rcases List.mem_append.mp h with h | h
      · rw [runTrace_append t1 _ curr0] at h
        rcases List.mem_append.mp h with h | h
        · exact no_status_without_wait t1 r curr0 hw1 hf1 h
        · have heq : runTrace (foldCurr curr0 t1)
              (REvent.start r :: t2) = runTrace (some r) t2 := rfl
          rw [heq] at h
          exact no_status_without_wait t2 r (some r) hw2 hf2 h
      · have heq : runTrace (foldCurr curr0 (t1 ++ REvent.start r :: t2))
            (REvent.start r2 :: t3) = runTrace (some r2) t3 := rfl
        rw [heq] at h
        exact no_status_of t3 r (some r2) (by simp [hr2]) hs3 hf3 h
    · have heq : runTrace (foldCurr (some r2) t3) (REvent.wait r :: t4) =
          runTrace (foldCurr (some r2) t3) t4 := by
        show emitMsgs _ (REvent.wait r) ++
          runTrace (stepCurr _ (REvent.wait r)) t4 = _
        rw [show emitMsgs (foldCurr (some r2) t3) (REvent.wait r) = []
            from by simp [emitMsgs, if_neg hcur],
          show stepCurr (foldCurr (some r2) t3) (REvent.wait r) =
            foldCurr (some r2) t3 from by simp [stepCurr, if_neg hcur],
          List.nil_append]
      rw [heq] at h
      exact no_status_of t4 r _ hcur hs4 hf4 h
  · intro t1 t2 r hw1 hw2 hf1 hf2 hout2
    have hsplit : runTrace curr0 (t1 ++ REvent.failStatus r :: t2) =
        runTrace curr0 t1 ++
          (RMsg.status r :: runTrace (foldCurr curr0 t1) t2) := by
      rw [runTrace_append t1 _ curr0]
      rfl
    refine ⟨runTrace curr0 t1, runTrace (foldCurr curr0 t1) t2,
      by rw [hsplit], ?_, ?_, ?_⟩
    · exact no_status_without_wait t1 r curr0 hw1 hf1
    · exact no_status_without_wait t2 r _ hw2 hf2
    · exact no_output_of t2 r _ hout2

theorem runner_output_then_status_witness :
    (runTrace none [REvent.start 0, REvent.out 0 0, REvent.start 1,
      REvent.out 1 0, REvent.wait 0, REvent.wait 1] =
      [RMsg.output 0 0, RMsg.output 1 0, RMsg.status 1]) ∧
    (RMsg.status 0 ∉ runTrace none [REvent.start 0, REvent.out 0 0,
      REvent.start 1, REvent.out 1 0, REvent.wait 0, REvent.wait 1]) ∧
    (∃ c1 c2, runTrace none [REvent.start 0, REvent.out 0 0, REvent.start 1,
      REvent.out 1 0, REvent.wait 0, REvent.wait 1] =
      c1 ++ RMsg.status 1 :: c2 ∧ RMsg.status 1 ∉ c1 ∧ RMsg.status 1 ∉ c2 ∧
      ∀ i, RMsg.output 1 i ∉ c2) := by
  have h := runner_output_then_status (none : Option Nat)
  refine ⟨by decide, ?_, ?_⟩
  · exact h.2.1 [] [REvent.out 0 0] [REvent.out 1 0] [REvent.wait 1] 0 1
      (by decide) (by decide) (by decide) (by decide) (by decide)
      (by decide) (by decide) (by decide) (by decide) (by decide) (by decide)
  · exact h.1 [REvent.start 0, REvent.out 0 0] [REvent.out 1 0, REvent.wait 0]
      [] 1 (by decide) (by decide) (by decide) (by decide) (by decide)
      (by decide) (by decide) (by intro r2; simp) (by intro i; simp)

end LazyTest
